import Mathlib

/-!
Verification of the openagent runtime substrate against its specification.

The Rust sources are shallowly embedded: pure helper functions become Lean
functions over `List Char` (one entry per byte/char; all the strings the
claims touch are ASCII, where Rust byte indexing and char indexing agree),
stateful components become explicit state-passing functions or labelled
transition systems, and fallible code returns `Except`/`Option`.
-/

namespace OpenAgent

/-- Characters treated as whitespace by the model of Rust `str::trim`.
This is the ASCII fragment of `char::is_whitespace`; the non-ASCII
whitespace code points never occur in the inputs the claims range over. -/
def isWsChar (c : Char) : Bool :=
  c = ' ' || c = '\t' || c = '\n' || c = '\r' || c = Char.ofNat 11 || c = Char.ofNat 12

/-- Convert a Lean string literal to the character-list representation used
throughout the embedding. -/
def chars (s : String) : List Char :=
  s.data

/-- Model of Rust `str::trim`: drop whitespace from both ends. -/
def trimChars (l : List Char) : List Char :=
  ((l.dropWhile isWsChar).reverse.dropWhile isWsChar).reverse

/-- Boolean prefix test: `lpre p l` holds when `p` is a prefix of `l`
(model of Rust `str::starts_with`). -/
def lpre : List Char → List Char → Bool
  | [], _ => true
  | _ :: _, [] => false
  | a :: as, b :: bs => if a = b then lpre as bs else false

/-- Boolean suffix test (model of Rust `str::ends_with`). -/
def lsuf (p l : List Char) : Bool :=
  lpre p.reverse l.reverse

/-- Model of Rust `str::find` for a literal pattern: index (in characters)
of the first occurrence of `p`, or `none`. -/
def findSub (p : List Char) : List Char → Option Nat
  | [] => if p = [] then some 0 else none
  | c :: t => if lpre p (c :: t) then some 0 else (findSub p t).map (· + 1)

/-- Whether `p` occurs anywhere inside `l` (model of Rust `str::contains`). -/
def containsSub (p l : List Char) : Bool :=
  (findSub p l).isSome

/-- Split a character list on a separator character; mirrors
`str::split(c)` (hence also the line structure `str::lines` exposes, up to
the trailing-newline and `\r` conventions, which the uses below are
insensitive to because every line is trimmed before inspection). -/
def splitOnChar (c : Char) : List Char → List (List Char)
  | [] => [[]]
  | x :: t =>
    if x = c then [] :: splitOnChar c t
    else
      match splitOnChar c t with
      | [] => [[x]]
      | h :: r => (x :: h) :: r

/-- Association-list lookup: first entry with the given key (model of
`HashMap::get`). -/
def alookup {κ ν : Type} [DecidableEq κ] (k : κ) : List (κ × ν) → Option ν
  | [] => none
  | (k', v) :: t => if k = k' then some v else alookup k t

/-- Association-list insertion: replace the first entry carrying the key,
or append a fresh entry (model of `HashMap::insert`). -/
def aset {κ ν : Type} [DecidableEq κ] (k : κ) (v : ν) : List (κ × ν) → List (κ × ν)
  | [] => [(k, v)]
  | (k', v') :: t => if k = k' then (k, v) :: t else (k', v') :: aset k v t

/-- Association-list removal of every entry carrying the key (model of
removing a path from the filesystem maps, where duplicate keys are
unrepresentable). -/
def aerase {κ ν : Type} [DecidableEq κ] (k : κ) : List (κ × ν) → List (κ × ν)
  | [] => []
  | (k', v') :: t => if k = k' then aerase k t else (k', v') :: aerase k t

/-- Association-list removal of the first entry carrying the key. -/
def aeraseOne {κ ν : Type} [DecidableEq κ] (k : κ) : List (κ × ν) → List (κ × ν)
  | [] => []
  | (k', v') :: t => if k = k' then t else (k', v') :: aeraseOne k t

/-- Whether the association list has an entry for the key. -/
def amem {κ ν : Type} [DecidableEq κ] (k : κ) (l : List (κ × ν)) : Bool :=
  (alookup k l).isSome

/-- Clamp a natural number into `[lo, hi]`; model of Rust
`Ord::clamp` at unsigned integer types (all call sites satisfy
`lo ≤ hi`, so the Rust panic branch is unreachable). -/
def clampNat (v lo hi : Nat) : Nat :=
  if v < lo then lo else if v > hi then hi else v

/-!
Command gateway (`src/tools/terminal.rs`): output-size limiting.
`parse_max_output_chars` reads the optional `max_output_chars` argument
(`args.get(..).and_then(as_u64)` is modelled as `Option Nat`) and clamps it;
`RunCommand::execute` truncates the formatted result and appends a marker.
-/

/-- Mirrors `DEFAULT_MAX_OUTPUT_CHARS` in `terminal.rs`. -/
def DEFAULT_MAX_OUTPUT_CHARS : Nat := 10000

/-- Mirrors `MAX_OUTPUT_CHARS_LIMIT` in `terminal.rs`. -/
def MAX_OUTPUT_CHARS_LIMIT : Nat := 50000

/-- Model of `parse_max_output_chars`: default then clamp into
`[1, 50000]`. -/
def parse_max_output_chars (arg : Option Nat) : Nat :=
  clampNat (arg.getD DEFAULT_MAX_OUTPUT_CHARS) 1 MAX_OUTPUT_CHARS_LIMIT

/-- The marker `RunCommand::execute` appends after truncating
(the Rust literal is a newline followed by the bracketed notice). -/
def truncationMarker : List Char :=
  chars "\n... [output truncated]"

/-- Model of the final truncation step of `RunCommand::execute`:
`result.truncate(max)` followed by appending the marker whenever the
result exceeded the limit. -/
def truncateFinalOutput (result : List Char) (maxChars : Nat) : List Char :=
  if result.length > maxChars then result.take maxChars ++ truncationMarker else result

/-!
Framebuffer streamer (`src/api/desktop_stream.rs`): fps/quality clamping.
`handle_desktop_stream` clamps the initial query parameters, then the
capture loop applies `ClientCommand`s; every division `1000 / fps` happens
on an already-clamped value.  Each division site is recorded as an event so
the divisor can be inspected.
-/

/-- Client control messages of the MJPEG stream (tagged union
`ClientCommand` in `desktop_stream.rs`). -/
inductive StreamCmd : Type
  | pause : StreamCmd
  | resume : StreamCmd
  | setFps (fps : Nat) : StreamCmd
  | setQuality (quality : Nat) : StreamCmd
deriving DecidableEq

/-- Mutable state of the capture loop in `handle_desktop_stream`. -/
structure StreamState : Type where
  paused : Bool
  currentQuality : Nat
  frameIntervalMs : Nat
deriving DecidableEq

/-- Model of `params.fps.unwrap_or(10).clamp(1, 30)`. -/
def initialFps (q : Option Nat) : Nat :=
  clampNat (q.getD 10) 1 30

/-- Model of `params.quality.unwrap_or(70).clamp(10, 100)`. -/
def initialQuality (q : Option Nat) : Nat :=
  clampNat (q.getD 70) 10 100

/-- Initial stream state and the divisor used by the initial
`1000 / fps` computation. -/
def initStream (fpsQ qualQ : Option Nat) : StreamState × Nat :=
  let fps := initialFps fpsQ
  ({ paused := false, currentQuality := initialQuality qualQ,
     frameIntervalMs := 1000 / fps }, fps)

/-- Model of the control-command dispatch in the capture loop; returns the
next state together with the divisors of any `1000 / fps` divisions the
step performs. -/
def applyStreamCmd (st : StreamState) : StreamCmd → StreamState × List Nat
  | .pause => ({ st with paused := true }, [])
  | .resume => ({ st with paused := false }, [])
  | .setFps fps =>
    let clamped := clampNat fps 1 30
    ({ st with frameIntervalMs := 1000 / clamped }, [clamped])
  | .setQuality quality =>
    ({ st with currentQuality := clampNat quality 10 100 }, [])

/-- Run the stream handler: clamp the query parameters and process the
command list, accumulating every division event. -/
def runStream (fpsQ qualQ : Option Nat) (cmds : List StreamCmd) : StreamState × List Nat :=
  let init := initStream fpsQ qualQ
  cmds.foldl
    (fun acc cmd =>
      let next := applyStreamCmd acc.1 cmd
      (next.1, acc.2 ++ next.2))
    (init.1, [init.2])

/-!
Command gateway (`src/tools/terminal.rs`): dangerous-command denylist.
`DANGEROUS_PATTERNS` pairs a pattern with a suggestion; `validate_command`
trims the command and returns the first pattern that matches either
directly or after one of the wrapper prefixes `sudo `/`time `/`nice `/
`nohup `; `RunCommand::execute` calls it before spawning anything and
returns the error without running a process.
-/

/-- Apostrophe character (code point 39), used inside the Rust message
literals. -/
def sq : Char := Char.ofNat 39

/-- Suggestion attached to the `find /` patterns. -/
def suggFind : List Char :=
  chars "Use " ++ [sq] ++ chars "find /root/work/" ++ [sq] ++ chars " or a specific directory path"

/-- Suggestion attached to `grep -r /`. -/
def suggGrepR : List Char :=
  chars "Use " ++ [sq] ++ chars "grep -r /root/" ++ [sq] ++ chars " or a specific directory path"

/-- Suggestion attached to `grep -rn /`. -/
def suggGrepRn : List Char :=
  chars "Use " ++ [sq] ++ chars "grep -rn /root/" ++ [sq] ++ chars " or a specific directory path"

/-- Suggestion attached to `grep -R /`. -/
def suggGrepRCap : List Char :=
  chars "Use " ++ [sq] ++ chars "grep -R /root/" ++ [sq] ++ chars " or a specific directory path"

/-- Suggestion attached to the `ls -laR /` and `du` patterns. -/
def suggRootDir : List Char :=
  chars "Use a specific directory path instead of root"

/-- Suggestion attached to the `rm -rf` patterns. -/
def suggDestroy : List Char :=
  chars "This would destroy the entire system"

/-- Suggestion attached to `> /dev/`. -/
def suggDevWrite : List Char :=
  chars "Writing to device files is blocked"

/-- Suggestion attached to `dd if=/dev/`. -/
def suggDiskOp : List Char :=
  chars "Direct disk operations are blocked"

/-- Mirrors `DANGEROUS_PATTERNS` in `terminal.rs`, in source order. -/
def DANGEROUS_PATTERNS : List (List Char × List Char) :=
  [ (chars "find /", suggFind)
  , (chars "find / ", suggFind)
  , (chars "grep -r /", suggGrepR)
  , (chars "grep -rn /", suggGrepRn)
  , (chars "grep -R /", suggGrepRCap)
  , (chars "ls -laR /", suggRootDir)
  , (chars "du -sh /", suggRootDir)
  , (chars "du -a /", suggRootDir)
  , (chars "rm -rf /", suggDestroy)
  , (chars "rm -rf /*", suggDestroy)
  , (chars "> /dev/", suggDevWrite)
  , (chars "dd if=/dev/", suggDiskOp) ]

/-- Wrapper prefixes stripped before re-testing a pattern
(the `prefixes` array inside `validate_command`). -/
def commandWrappers : List (List Char) :=
  [chars "sudo ", chars "time ", chars "nice ", chars "nohup "]

/-- The error text `validate_command` formats:
`Blocked dangerous command pattern '<pattern>'. <suggestion>`. -/
def blockMessage (pat sugg : List Char) : List Char :=
  chars "Blocked dangerous command pattern " ++ [sq] ++ pat ++ [sq] ++ chars ". " ++ sugg

/-- Whether a trimmed command matches a pattern directly or after one
wrapper prefix — the two checks the `validate_command` loop performs for
each pattern. -/
def patternHit (t pat : List Char) : Bool :=
  lpre pat t || commandWrappers.any (fun pre => lpre pre t && lpre pat (t.drop pre.length))

/-- Model of `validate_command`: first matching pattern wins; `none` means
the command is allowed. -/
def validate_command (cmd : List Char) : Option (List Char) :=
  let t := trimChars cmd
  DANGEROUS_PATTERNS.findSome? fun ps =>
    if patternHit t ps.1 then some (blockMessage ps.1 ps.2) else none

/-- Observable outcome of `RunCommand::execute` up to the point a process
would be spawned: either the denylist blocked the command (no process) or
the command proceeded to the spawn path. -/
inductive ExecOutcome : Type
  | blocked (msg : List Char) : ExecOutcome
  | ran (command : List Char) : ExecOutcome
deriving DecidableEq

/-- Model of the head of `RunCommand::execute`: validation runs before any
process is spawned, and a validation failure returns the error directly. -/
def runCommandOutcome (cmd : List Char) : ExecOutcome :=
  match validate_command cmd with
  | some msg => .blocked msg
  | none => .ran cmd

/-- A match can come with no wrapper or with one wrapper; the empty prefix
stands for the direct check. -/
def wrapperOptions : List (List Char) :=
  [] :: commandWrappers

/-- Any two simultaneously matchable pattern entries carry the same
suggestion: entries with different suggestions are pairwise incomparable
as (wrapper ++ pattern) prefixes. -/
def suggestionsCoherent : Bool :=
  DANGEROUS_PATTERNS.all fun p =>
    DANGEROUS_PATTERNS.all fun q =>
      (decide (p.2 = q.2)) ||
      wrapperOptions.all fun u =>
        wrapperOptions.all fun v =>
          !(lpre (u ++ p.1) (v ++ q.1)) && !(lpre (v ++ q.1) (u ++ p.1))

/-!
Workspace materializer (`src/workspace.rs`): skill frontmatter.
`ensure_skill_name_in_frontmatter` inserts a `name:` field into the first
YAML frontmatter block when absent.
-/

/-- Mirrors the `has_name` check inside `ensure_skill_name_in_frontmatter`:
some line of the frontmatter, once trimmed, starts with `name:` or
`name :`. -/
def frontmatterHasName (fm : List Char) : Bool :=
  (splitOnChar '\n' fm).any fun line =>
    lpre (chars "name:") (trimChars line) || lpre (chars "name :") (trimChars line)

/-- Model of `ensure_skill_name_in_frontmatter`. Slicing at byte positions
in the Rust source is slicing at character positions here; the positions
involved (`3` and a match position of `---`) always fall on character
boundaries. -/
def ensure_skill_name_in_frontmatter (content skill : List Char) : List Char :=
  if !(lpre (chars "---") content) then
    chars "---\nname: " ++ skill ++ chars "\n---\n" ++ content
  else
    match findSub (chars "---") (content.drop 3) with
    | none => content
    | some endIdx =>
      let fm := (content.drop 3).take endIdx
      let rest := (content.drop 3).drop endIdx
      if frontmatterHasName fm then content
      else
        chars "---\nname: " ++ skill ++ chars "\n" ++ trimChars fm ++ chars "\n" ++
          rest.dropWhile (fun c => c = '\n')

/-!
SSRF guard (`src/api/fs.rs`): `is_internal_ip` and `validate_url_for_ssrf`.
IPv4 addresses are four octets, IPv6 addresses eight 16-bit segments; the
Rust standard-library classification predicates are written out.  The URL
is represented after `url::Url::parse`: a scheme plus an optional host
that is an IPv4 address, an IPv6 address, or a domain (the url crate
normalizes IPv4-shaped authorities into the IPv4 case).  DNS resolution is
an oracle argument; `none` models a resolver error.
-/

/-- Four octets of an IPv4 address. -/
structure Ipv4A : Type where
  o0 : Nat
  o1 : Nat
  o2 : Nat
  o3 : Nat
deriving DecidableEq

/-- Eight 16-bit segments of an IPv6 address. -/
structure Ipv6A : Type where
  s0 : Nat
  s1 : Nat
  s2 : Nat
  s3 : Nat
  s4 : Nat
  s5 : Nat
  s6 : Nat
  s7 : Nat
deriving DecidableEq

/-- Model of `std::net::IpAddr`. -/
inductive IpAddrM : Type
  | v4 (ip : Ipv4A) : IpAddrM
  | v6 (ip : Ipv6A) : IpAddrM
deriving DecidableEq

/-- Rust `Ipv4Addr::is_loopback`: 127.0.0.0/8. -/
def ipv4IsLoopback (ip : Ipv4A) : Bool :=
  decide (ip.o0 = 127)

/-- Rust `Ipv4Addr::is_private`: 10/8, 172.16/12, 192.168/16. -/
def ipv4IsPrivate (ip : Ipv4A) : Bool :=
  decide (ip.o0 = 10) ||
  (decide (ip.o0 = 172) && decide (16 ≤ ip.o1) && decide (ip.o1 ≤ 31)) ||
  (decide (ip.o0 = 192) && decide (ip.o1 = 168))

/-- Rust `Ipv4Addr::is_link_local`: 169.254/16. -/
def ipv4IsLinkLocal (ip : Ipv4A) : Bool :=
  decide (ip.o0 = 169) && decide (ip.o1 = 254)

/-- Rust `Ipv4Addr::is_broadcast`: 255.255.255.255. -/
def ipv4IsBroadcast (ip : Ipv4A) : Bool :=
  decide (ip.o0 = 255) && decide (ip.o1 = 255) && decide (ip.o2 = 255) && decide (ip.o3 = 255)

/-- Rust `Ipv4Addr::is_documentation`: 192.0.2/24, 198.51.100/24,
203.0.113/24. -/
def ipv4IsDocumentation (ip : Ipv4A) : Bool :=
  (decide (ip.o0 = 192) && decide (ip.o1 = 0) && decide (ip.o2 = 2)) ||
  (decide (ip.o0 = 198) && decide (ip.o1 = 51) && decide (ip.o2 = 100)) ||
  (decide (ip.o0 = 203) && decide (ip.o1 = 0) && decide (ip.o2 = 113))

/-- Rust `Ipv4Addr::is_unspecified`: 0.0.0.0. -/
def ipv4IsUnspecified (ip : Ipv4A) : Bool :=
  decide (ip.o0 = 0) && decide (ip.o1 = 0) && decide (ip.o2 = 0) && decide (ip.o3 = 0)

/-- The cloud-metadata address check `octets() == [169, 254, 169, 254]`. -/
def ipv4IsMetadata (ip : Ipv4A) : Bool :=
  decide (ip.o0 = 169) && decide (ip.o1 = 254) && decide (ip.o2 = 169) && decide (ip.o3 = 254)

/-- The IPv4 arm of `is_internal_ip`, with the disjuncts in source order. -/
def ipv4Internal (ip : Ipv4A) : Bool :=
  ipv4IsLoopback ip || ipv4IsPrivate ip || ipv4IsLinkLocal ip || ipv4IsBroadcast ip ||
  ipv4IsDocumentation ip || ipv4IsMetadata ip || ipv4IsUnspecified ip

/-- Rust `Ipv6Addr::to_ipv4_mapped`: `::ffff:a.b.c.d` exposes its embedded
IPv4 address. -/
def toIpv4Mapped (ip : Ipv6A) : Option Ipv4A :=
  if ip.s0 = 0 ∧ ip.s1 = 0 ∧ ip.s2 = 0 ∧ ip.s3 = 0 ∧ ip.s4 = 0 ∧ ip.s5 = 65535 then
    some ⟨ip.s6 / 256, ip.s6 % 256, ip.s7 / 256, ip.s7 % 256⟩
  else none

/-- Rust `Ipv6Addr::is_loopback`: `::1`. -/
def ipv6IsLoopback (ip : Ipv6A) : Bool :=
  decide (ip.s0 = 0) && decide (ip.s1 = 0) && decide (ip.s2 = 0) && decide (ip.s3 = 0) &&
  decide (ip.s4 = 0) && decide (ip.s5 = 0) && decide (ip.s6 = 0) && decide (ip.s7 = 1)

/-- Rust `Ipv6Addr::is_unspecified`: `::`. -/
def ipv6IsUnspecified (ip : Ipv6A) : Bool :=
  decide (ip.s0 = 0) && decide (ip.s1 = 0) && decide (ip.s2 = 0) && decide (ip.s3 = 0) &&
  decide (ip.s4 = 0) && decide (ip.s5 = 0) && decide (ip.s6 = 0) && decide (ip.s7 = 0)

/-- The IPv6 arm of `is_internal_ip`: loopback, unspecified, internal
IPv4-mapped, unique-local (`seg0 & 0xfe00 == 0xfc00`) or link-local
(`seg0 & 0xffc0 == 0xfe80`). -/
def ipv6Internal (ip : Ipv6A) : Bool :=
  ipv6IsLoopback ip || ipv6IsUnspecified ip ||
  (match toIpv4Mapped ip with
   | some v4 => ipv4Internal v4
   | none => false) ||
  decide (Nat.land ip.s0 65024 = 64512) ||
  decide (Nat.land ip.s0 65472 = 65152)

/-- Model of `is_internal_ip`. -/
def is_internal_ip : IpAddrM → Bool
  | .v4 ip => ipv4Internal ip
  | .v6 ip => ipv6Internal ip

/-- Host of a parsed URL, as classified by `url::Url::host`. -/
inductive UrlHost : Type
  | ipv4 (ip : Ipv4A) : UrlHost
  | ipv6 (ip : Ipv6A) : UrlHost
  | dom (s : List Char) : UrlHost
deriving DecidableEq

/-- Decimal digits of a natural number. -/
def natDecimal (n : Nat) : List Char :=
  Nat.toDigits 10 n

/-- Model of `url::Url::host_str`: the dotted decimal form for IPv4, the
bracketed form for IPv6 (the url crate also compresses zero runs, which
none of the checks below are sensitive to), the domain text otherwise. -/
def hostStr : UrlHost → List Char
  | .ipv4 ip =>
    natDecimal ip.o0 ++ chars "." ++ natDecimal ip.o1 ++ chars "." ++
      natDecimal ip.o2 ++ chars "." ++ natDecimal ip.o3
  | .ipv6 ip =>
    chars "[" ++
      (List.intercalate (chars ":")
        [Nat.toDigits 16 ip.s0, Nat.toDigits 16 ip.s1, Nat.toDigits 16 ip.s2,
         Nat.toDigits 16 ip.s3, Nat.toDigits 16 ip.s4, Nat.toDigits 16 ip.s5,
         Nat.toDigits 16 ip.s6, Nat.toDigits 16 ip.s7]) ++ chars "]"
  | .dom s => s

/-- Model of `host_str.parse::<IpAddr>()`: the dotted-decimal form of an
IPv4 host parses back; the bracketed IPv6 form is rejected by
`IpAddr::from_str` (it accepts no brackets); a url-crate domain is never
IPv4-shaped because such authorities are normalized into the IPv4 case. -/
def parseHostIp : UrlHost → Option IpAddrM
  | .ipv4 ip => some (.v4 ip)
  | .ipv6 _ => none
  | .dom _ => none

/-- Lowercase a character list (model of `str::to_lowercase` on the ASCII
hosts involved). -/
def lowerChars (l : List Char) : List Char :=
  l.map Char.toLower

/-- Model of `ToSocketAddrs::to_socket_addrs((host_str, 80))`: a numeric
IPv4 host is parsed without consulting DNS; the bracketed IPv6 serialization
fails numeric parsing and goes to the resolver (where `getaddrinfo` does
not accept brackets); a domain goes to the resolver. -/
def socketAddrsOf (h : UrlHost) (dns : List Char → Option (List IpAddrM)) :
    Option (List IpAddrM) :=
  match h with
  | .ipv4 ip => some [.v4 ip]
  | .ipv6 _ => dns (hostStr h)
  | .dom s => dns s

/-- Model of `validate_url_for_ssrf`, applied to the already-parsed URL
components (scheme and host) with the DNS resolver as an oracle. -/
def validate_url_for_ssrf (scheme : List Char) (host : Option UrlHost)
    (dns : List Char → Option (List IpAddrM)) : Except (List Char) Unit :=
  if scheme = chars "http" ∨ scheme = chars "https" then
    match host with
    | none => .error (chars "URL has no host")
    | some h =>
      let hl := lowerChars (hostStr h)
      if hl = chars "localhost" ∨ lsuf (chars ".localhost") hl = true ∨ hl = chars "0.0.0.0" then
        .error (chars "Requests to localhost are not allowed")
      else if (match parseHostIp h with
               | some ip => is_internal_ip ip
               | none => false) then
        .error (chars "Requests to internal IP addresses are not allowed")
      else
        match socketAddrsOf h dns with
        | some addrs =>
          if addrs.any is_internal_ip then
            .error (chars "URL resolves to internal IP address")
          else .ok ()
        | none => .ok ()
  else .error (chars "Disallowed URL scheme")

/-!
File listing (`src/api/fs.rs`): the `list` endpoint.  The directory tree is
an oracle mapping a path to its entries (`none` = the path does not exist).
On the localhost fast path `list_directory_local` calls
`tokio::fs::read_dir`, which fails on a missing path and is surfaced as
HTTP 500; on the SSH path the Python `LIST_SCRIPT` catches
`FileNotFoundError` and prints an empty JSON array.
-/

/-- Directory entry as produced by both listing paths. -/
structure FsEntryM : Type where
  name : List Char
  kind : List Char
  size : Nat
  mtime : Int
deriving DecidableEq

/-- Model of `list_directory_local`: `read_dir` errors when the path is
missing. -/
def list_directory_local (tree : List (List Char × List FsEntryM)) (path : List Char) :
    Except (List Char) (List FsEntryM) :=
  match alookup path tree with
  | none => .error (chars "No such file or directory")
  | some es => .ok es

/-- Model of the Python `LIST_SCRIPT` run over SSH: `FileNotFoundError`
yields the empty array. -/
def listScriptRemote (tree : List (List Char × List FsEntryM)) (path : List Char) :
    List FsEntryM :=
  match alookup path tree with
  | none => []
  | some es => es

/-- Model of the `list` handler: the localhost branch maps any local error
to HTTP 500; the SSH branch parses the script output. -/
def fsList (localhost : Bool) (tree : List (List Char × List FsEntryM)) (path : List Char) :
    Except (Nat × List Char) (List FsEntryM) :=
  if localhost then
    match list_directory_local tree path with
    | .error e => .error (500, e)
    | .ok es => .ok es
  else
    .ok (listScriptRemote tree path)

/-!
Chunked upload (`src/api/fs.rs`): `sanitize_path_component`,
`upload_chunk` and `upload_finalize` on the localhost path.  The
filesystem is modelled as a map from chunk-directory names to their chunk
files (keyed by chunk index — the on-disk names `chunk_{index:06}` are
injective in the index) plus a map from file paths to contents.  Failure
paths return an error without tracking the partially written temp file,
which no claim inspects.
-/

/-- Path-separator test used by the sanitizer (`/` or backslash). -/
def sepChar (c : Char) : Bool :=
  c = '/' || c = Char.ofNat 92

/-- The basename step of `sanitize_path_component`: the part after the
last separator (`rsplit(..).next()`). -/
def lastPathComponent (l : List Char) : List Char :=
  l.foldl (fun acc c => if sepChar c then [] else acc ++ [c]) []

/-- Model of `str::replace("..", "")`: drop non-overlapping `..`
occurrences left to right. -/
def stripDotDot : List Char → List Char
  | '.' :: '.' :: t => stripDotDot t
  | c :: t => c :: stripDotDot t
  | [] => []

/-- Model of `str::replace('\0', "")`. -/
def stripNul (l : List Char) : List Char :=
  l.filter fun c => if c = Char.ofNat 0 then false else true

/-- Model of `sanitize_path_component`. -/
def sanitize_path_component (s : List Char) : List Char :=
  trimChars (stripNul (stripDotDot (lastPathComponent s)))

/-- Filesystem state of the chunked-upload endpoints. -/
structure ChunkState : Type where
  dirs : List (List Char × List (Nat × List Nat))
  files : List (List Char × List Nat)
deriving DecidableEq

/-- Temp-directory name for an upload id
(`open_agent_chunks_{sanitized id}`). -/
def chunkDirName (sid : List Char) : List Char :=
  chars "open_agent_chunks_" ++ sid

/-- Temp name of the assembled file
(`open_agent_assembled_{sanitized id}`). -/
def assembledName (sid : List Char) : List Char :=
  chars "open_agent_assembled_" ++ sid

/-- Effect of persisting one chunk: the chunk directory for the sanitized
id gains (or overwrites) the file for this index. -/
def chunkWrite (st : ChunkState) (sid : List Char) (index : Nat) (data : List Nat) :
    ChunkState :=
  let dir := (alookup (chunkDirName sid) st.dirs).getD []
  { st with dirs := aset (chunkDirName sid) (aset index data dir) st.dirs }

/-- Model of `upload_chunk`: validate, ensure the chunk directory, persist
the chunk under its index. -/
def upload_chunk (st : ChunkState) (path uploadId : List Char) (index : Nat)
    (data : List Nat) : Except (List Char) ChunkState :=
  if trimChars path = [] then .error (chars "Invalid path")
  else
    let sid := sanitize_path_component uploadId
    if sid = [] then .error (chars "Invalid upload_id")
    else .ok (chunkWrite st sid index data)

/-- The chunk-concatenation loop of `upload_finalize`: read chunks
`i, …, total-1` in order, appending to `acc`; a missing chunk aborts with
the partial content and the failing index. -/
def assembleGo (dir : List (Nat × List Nat)) (total i : Nat) (acc : List Nat) :
    Except (List Nat × Nat) (List Nat) :=
  if i < total then
    match alookup i dir with
    | none => .error (acc, i)
    | some b => assembleGo dir total (i + 1) (acc ++ b)
  else .ok acc
termination_by total - i

/-- Destination path computation shared by the upload endpoints:
append the file name, inserting `/` unless the path already ends with
one. -/
def destPath (path fname : List Char) : List Char :=
  if lsuf (chars "/") path then path ++ fname else path ++ chars "/" ++ fname

/-- Model of `upload_finalize` on the localhost path: sanitize, assemble
the chunks in index order into the temp assembled file, rename it to the
destination, then remove the chunk directory. -/
def upload_finalize (st : ChunkState) (path uploadId fileName : List Char)
    (total : Nat) : Except (List Char) (ChunkState × List Char) :=
  let sid := sanitize_path_component uploadId
  if sid = [] then .error (chars "Invalid upload_id")
  else
    let sfn := sanitize_path_component fileName
    if sfn = [] then .error (chars "Invalid file_name")
    else
      let dk := chunkDirName sid
      let dir := (alookup dk st.dirs).getD []
      match assembleGo dir total 0 [] with
      | .error _ => .error (chars "Failed to read chunk")
      | .ok content =>
        let rp := destPath path sfn
        let files1 := aset (assembledName sid) content st.files
        let files2 := aset rp content (aerase (assembledName sid) files1)
        .ok ({ dirs := aerase dk st.dirs, files := files2 }, rp)

/-- Upload the chunks of the list in index order starting at index `m`
(each HTTP call is one `upload_chunk`). -/
def uploadChunksFrom (st : ChunkState) (path uploadId : List Char) (m : Nat) :
    List (List Nat) → Except (List Char) ChunkState
  | [] => .ok st
  | c :: rest =>
    match upload_chunk st path uploadId m c with
    | .error e => .error e
    | .ok st2 => uploadChunksFrom st2 path uploadId (m + 1) rest

/-- Upload every chunk of the list, chunk `i` under index `i`. -/
def uploadChunks (st : ChunkState) (path uploadId : List Char)
    (chunkData : List (List Nat)) : Except (List Char) ChunkState :=
  uploadChunksFrom st path uploadId 0 chunkData

/-!
Workspace store (`src/workspace.rs` and `src/api/workspaces.rs`).
Uuids are modelled as naturals with `0` for the nil uuid; `Uuid::new_v4`
always sets the version bits, so a freshly generated id is never nil —
the transition system below therefore quantifies over arbitrary nonzero
ids where the code calls `new_v4`.  The in-memory `HashMap` is an
association list; its unspecified iteration order is modelled as entry
order, and `save_to_disk` serializes `workspaces.values()` in that order
(the code applies no sorting).  The disk is the deserialized content of
`workspaces.json` (`none` = the file does not exist).
-/

/-- Mirrors `WorkspaceStatus`. -/
inductive WStatus : Type
  | pending : WStatus
  | building : WStatus
  | ready : WStatus
  | failed : WStatus
deriving DecidableEq

/-- Mirrors `WorkspaceType` (`Host`/`Chroot`). -/
inductive WType : Type
  | host : WType
  | chroot : WType
deriving DecidableEq

/-- The fields of `Workspace` the claims depend on. -/
structure WorkspaceM : Type where
  wid : Nat
  name : String
  wtype : WType
  status : WStatus
deriving DecidableEq

/-- Mirrors `DEFAULT_WORKSPACE_ID` (the nil uuid). -/
def DEFAULT_WORKSPACE_ID : Nat := 0

/-- Mirrors `Workspace::default_host`. -/
def defaultHostWorkspace : WorkspaceM :=
  { wid := DEFAULT_WORKSPACE_ID, name := "host", wtype := .host, status := .ready }

/-- State of a `WorkspaceStore`: the in-memory map plus the on-disk JSON
array. -/
structure StoreSt : Type where
  map : List (Nat × WorkspaceM)
  disk : Option (List WorkspaceM)
deriving DecidableEq

/-- The in-memory values in map order (`workspaces.values()`). -/
def valuesOf (m : List (Nat × WorkspaceM)) : List WorkspaceM :=
  m.map fun kv => kv.2

/-- Filesystem operations `save_to_disk` can perform on the storage
path. -/
inductive StoreFsOp : Type
  | createDirAll : StoreFsOp
  | writeFile (content : List WorkspaceM) : StoreFsOp
  | renameInto (content : List WorkspaceM) : StoreFsOp
deriving DecidableEq

/-- The operation trace of `save_to_disk`: ensure the parent directory,
then one direct `std::fs::write` of the serialized values (no temp file,
no rename). -/
def saveOps (m : List (Nat × WorkspaceM)) : List StoreFsOp :=
  [.createDirAll, .writeFile (valuesOf m)]

/-- Effect of `save_to_disk` on the store state. -/
def saveStore (s : StoreSt) : StoreSt :=
  { s with disk := some (valuesOf s.map) }

/-- Whether a filesystem operation is a rename (the write-then-rename
pattern would emit one; `save_to_disk` does not). -/
def isRenameOp : StoreFsOp → Bool
  | .renameInto _ => true
  | _ => false

/-- The last workspace in a list carrying a given id; this is the entry
that survives `collect()` into a map when ids collide. -/
def lastWith (k : Nat) : List WorkspaceM → Option WorkspaceM
  | [] => none
  | w :: t =>
    match lastWith k t with
    | some x => some x
    | none => if w.wid = k then some w else none

/-- Model of `WorkspaceStore::add`: insert, then save. -/
def storeAdd (s : StoreSt) (w : WorkspaceM) : StoreSt :=
  saveStore { s with map := aset w.wid w s.map }

/-- Model of `WorkspaceStore::update`: replace only when present, saving
on success. -/
def storeUpdate (s : StoreSt) (w : WorkspaceM) : StoreSt × Bool :=
  if amem w.wid s.map then (saveStore { s with map := aset w.wid w s.map }, true)
  else (s, false)

/-- Model of `WorkspaceStore::delete`: refuse the default workspace,
otherwise remove and save when something was removed. -/
def storeDelete (s : StoreSt) (i : Nat) : StoreSt × Bool :=
  if i = DEFAULT_WORKSPACE_ID then (s, false)
  else if amem i s.map then (saveStore { s with map := aeraseOne i s.map }, true)
  else (s, false)

/-- Model of the `delete_workspace` HTTP handler: the nil uuid is refused
with a typed `400` error before the store is touched; otherwise a failed
store delete surfaces as `404`. -/
def apiDeleteWorkspace (s : StoreSt) (i : Nat) : Except (Nat × String) String × StoreSt :=
  if i = DEFAULT_WORKSPACE_ID then
    (.error (400, "Cannot delete default host workspace"), s)
  else
    let r := storeDelete s i
    if r.2 then (.ok "deleted", r.1) else (.error (404, "Workspace not found"), r.1)

/-- Model of `load_from_disk` followed by `collect()` into the map:
later array entries override earlier ones with the same id. -/
def loadMap (disk : Option (List WorkspaceM)) : List (Nat × WorkspaceM) :=
  match disk with
  | none => []
  | some l => l.foldl (fun m w => aset w.wid w m) []

/-- Model of `WorkspaceStore::new`: load, ensure the default host
workspace, merge the orphan-scan results, save.  The orphan list stands
for the workspaces `scan_orphaned_containers` builds from unreferenced
container directories. -/
def constructStore (disk : Option (List WorkspaceM)) (orphans : List WorkspaceM) : StoreSt :=
  let m0 := loadMap disk
  let m1 :=
    if amem DEFAULT_WORKSPACE_ID m0 then m0
    else aset DEFAULT_WORKSPACE_ID defaultHostWorkspace m0
  let m2 := orphans.foldl (fun m w => aset w.wid w m) m1
  saveStore { map := m2, disk := disk }

/-- Shape of a workspace produced by `scan_orphaned_containers`: a fresh
(`new_v4`, hence nonzero) id, container type, status `Ready` when the
directory looks like a root and `Pending` otherwise. -/
def OrphanOk (w : WorkspaceM) : Prop :=
  w.wid ≠ DEFAULT_WORKSPACE_ID ∧ w.wtype = .chroot ∧
    (w.status = .ready ∨ w.status = .pending)

/-- Store states reachable through the operations the repository actually
performs: boot from an absent file, create host workspaces (`Ready`) and
container workspaces (`Pending`) with fresh nonzero ids, delete, and
restart from the persisted file.  `WorkspaceStore::update` has no caller
in the repository. -/
inductive ReachStore : StoreSt → Prop
  | boot (orphans : List WorkspaceM) (h : ∀ w ∈ orphans, OrphanOk w) :
      ReachStore (constructStore none orphans)
  | addHost (s : StoreSt) (i : Nat) (nm : String) (hs : ReachStore s) (hi : i ≠ 0) :
      ReachStore (storeAdd s { wid := i, name := nm, wtype := .host, status := .ready })
  | addChroot (s : StoreSt) (i : Nat) (nm : String) (hs : ReachStore s) (hi : i ≠ 0) :
      ReachStore (storeAdd s { wid := i, name := nm, wtype := .chroot, status := .pending })
  | del (s : StoreSt) (i : Nat) (hs : ReachStore s) :
      ReachStore (storeDelete s i).1
  | restart (s : StoreSt) (orphans : List WorkspaceM) (hs : ReachStore s)
      (h : ∀ w ∈ orphans, OrphanOk w) :
      ReachStore (constructStore s.disk orphans)

/-- Lexicographic order on character lists (the ordering `String::cmp`
induces on the ASCII names involved). -/
def charListLe : List Char → List Char → Bool
  | [], _ => true
  | _ :: _, [] => false
  | a :: as, b :: bs =>
    if a.toNat < b.toNat then true
    else if b.toNat < a.toNat then false
    else charListLe as bs

/-- Name ordering used by `WorkspaceStore::list`. -/
def nameLe (a b : String) : Bool :=
  charListLe a.data b.data

/-- Modelled from the spec: the sorted serialization the spec compares the
file against (`sort(s.values())`), using the same name ordering that
`WorkspaceStore::list` applies.  Insertion sort by name. -/
def insertByName (w : WorkspaceM) : List WorkspaceM → List WorkspaceM
  | [] => [w]
  | x :: t => if nameLe w.name x.name then w :: x :: t else x :: insertByName w t

/-- Modelled from the spec: sort the serialized values by name. -/
def sortByName (l : List WorkspaceM) : List WorkspaceM :=
  l.foldr insertByName []

/-!
PTY session pool (`src/api/console.rs`).  A pooled session holds the
in-use flag, the disconnect timestamp, whether its input channel is
closed (`to_pty_tx.is_closed()` — while a session sits in the pool the
pool itself keeps a sender alive, so the flag can never flip to true, but
the guard tests it and the model keeps it), and the child process it owns.
Connection handling is split exactly where the code splits it across
await points: `connect` is `handle_console`'s read-and-reuse check, which
either reuses atomically (under the session mutex) or spawns a fresh
child and leaves the insertion pending; `finishInsert` is the
pool-write block at the end of `handle_new_session`.  Other events can
interleave between the two, as they can in the code.  Every kill of a
child is recorded as an event.
-/

/-- Mirrors `SESSION_POOL_TIMEOUT` (seconds). -/
def SESSION_POOL_TIMEOUT : Nat := 30

/-- The mutable state of a `PooledSession`. -/
structure PSession : Type where
  inUse : Bool
  disconnectedAt : Option Nat
  channelClosed : Bool
  child : Nat
deriving DecidableEq

/-- Where a kill originated. -/
inductive KillReason : Type
  | reaperExpired : KillReason
  | staleReplaced : KillReason
  | newAborted : KillReason
deriving DecidableEq

/-- Record of one `child.kill()` call: which child, from which code path,
whether the killed pooled session was in use, and how long it had been
disconnected (`none` when it had no disconnect stamp or was never
pooled). -/
structure KillEvent : Type where
  child : Nat
  reason : KillReason
  victimInUse : Bool
  idleAge : Option Nat
deriving DecidableEq

/-- Pool state: the session map, the in-flight new-session handlers that
have spawned a child but not yet performed the pool write, the clock
(seconds), and a fresh-child counter. -/
structure PoolSt : Type where
  sessions : List (String × PSession)
  pending : List (String × Nat)
  time : Nat
  nextChild : Nat
deriving DecidableEq

/-- A freshly inserted session (`in_use = true`, no disconnect stamp). -/
def freshSession (c : Nat) : PSession :=
  { inUse := true, disconnectedAt := none, channelClosed := false, child := c }

/-- The reaper's expiry test from `cleanup_expired_sessions`: not in use
and disconnected for strictly longer than the pool timeout. -/
def sessionExpired (now : Nat) (s : PSession) : Bool :=
  !s.inUse &&
    (match s.disconnectedAt with
     | some t => decide (now - t > SESSION_POOL_TIMEOUT)
     | none => false)

/-- Events of the pool transition system. -/
inductive PoolAct : Type
  | connect (k : String) : PoolAct
  | finishInsert (k : String) : PoolAct
  | disconnect (k : String) : PoolAct
  | reap : PoolAct
  | tick (d : Nat) : PoolAct
deriving DecidableEq

/-- One transition, returning the next state and the kill events the step
performs.

`connect k` — `handle_console`: reuse a pooled session when it is idle
with an open channel (flip in-use, clear the stamp); otherwise spawn a
fresh child and leave the insertion pending.

`finishInsert k` — the pool-write block of `handle_new_session`: if the
existing entry is now in use, kill only the fresh child; otherwise
remove-and-kill any existing entry and insert the fresh session.

`disconnect k` — the end of the WebSocket loop: flip in-use off and stamp
the time; no kill.

`reap` — `cleanup_expired_sessions`: remove and kill every expired entry.

`tick d` — time passes. -/
def poolStep (s : PoolSt) : PoolAct → PoolSt × List KillEvent
  | .connect k =>
    match alookup k s.sessions with
    | some ps =>
      if !ps.inUse && !ps.channelClosed then
        let reused := { ps with inUse := true, disconnectedAt := none }
        ({ s with sessions := aset k reused s.sessions }, [])
      else
        ({ s with pending := s.pending ++ [(k, s.nextChild)], nextChild := s.nextChild + 1 }, [])
    | none =>
      ({ s with pending := s.pending ++ [(k, s.nextChild)], nextChild := s.nextChild + 1 }, [])
  | .finishInsert k =>
    match alookup k s.pending with
    | none => (s, [])
    | some c =>
      let p := aeraseOne k s.pending
      match alookup k s.sessions with
      | some ps =>
        if ps.inUse then
          ({ s with pending := p },
           [{ child := c, reason := .newAborted, victimInUse := false, idleAge := none }])
        else
          ({ s with sessions := aset k (freshSession c) (aeraseOne k s.sessions), pending := p },
           [{ child := ps.child, reason := .staleReplaced, victimInUse := ps.inUse,
              idleAge := ps.disconnectedAt.map fun t => s.time - t }])
      | none =>
        ({ s with sessions := aset k (freshSession c) s.sessions, pending := p }, [])
  | .disconnect k =>
    match alookup k s.sessions with
    | some ps =>
      if ps.inUse then
        let idle := { ps with inUse := false, disconnectedAt := some s.time }
        ({ s with sessions := aset k idle s.sessions }, [])
      else (s, [])
    | none => (s, [])
  | .reap =>
    ({ s with sessions := s.sessions.filter fun kv => !sessionExpired s.time kv.2 },
     (s.sessions.filter fun kv => sessionExpired s.time kv.2).map fun kv =>
       { child := kv.2.child, reason := .reaperExpired, victimInUse := kv.2.inUse,
         idleAge := kv.2.disconnectedAt.map fun t => s.time - t })
  | .tick d => ({ s with time := s.time + d }, [])

/-- Run a sequence of pool events, accumulating every kill event. -/
def runPool (s : PoolSt) : List PoolAct → PoolSt × List KillEvent
  | [] => (s, [])
  | a :: acts =>
    let st := poolStep s a
    let rest := runPool st.1 acts
    (rest.1, st.2 ++ rest.2)

/-- The empty pool at server start. -/
def initPool : PoolSt :=
  { sessions := [], pending := [], time := 0, nextChild := 0 }

/-!
Proof-support predicates (invariants the theorems below carry through the
transition systems).
-/

/-- Invariant carried through the capture loop: the quality is in range
and every recorded division used a divisor in `[1, 30]`. -/
def StreamInv (acc : StreamState × List Nat) : Prop :=
  (10 ≤ acc.1.currentQuality ∧ acc.1.currentQuality ≤ 100) ∧
  ∀ d ∈ acc.2, 1 ≤ d ∧ d ≤ 30

/-- Store-map invariant: entries are keyed by their workspace id, the nil
id is mapped, and every nil-id workspace is `Ready`. -/
def MapInv (m : List (Nat × WorkspaceM)) : Prop :=
  (∀ kv ∈ m, kv.1 = kv.2.wid) ∧
  (∃ w, alookup DEFAULT_WORKSPACE_ID m = some w) ∧
  (∀ w ∈ valuesOf m, w.wid = DEFAULT_WORKSPACE_ID → w.status = .ready)

/-- Disk invariant: when the file exists, it holds a nil-id workspace and
every nil-id workspace in it is `Ready`. -/
def DiskInv (d : Option (List WorkspaceM)) : Prop :=
  ∀ l, d = some l →
    (∃ w ∈ l, w.wid = DEFAULT_WORKSPACE_ID) ∧
    (∀ w ∈ l, w.wid = DEFAULT_WORKSPACE_ID → w.status = .ready)

/-- Combined store invariant. -/
def StoreInv (s : StoreSt) : Prop :=
  MapInv s.map ∧ DiskInv s.disk

end OpenAgent

deriving instance DecidableEq for Except

namespace OpenAgent

/-! Utility lemmas about the list helpers. -/

theorem clampNat_lower {lo hi : Nat} (v : Nat) (h : lo ≤ hi) : lo ≤ clampNat v lo hi := by
  unfold clampNat
  split <;> [omega; skip]
  split <;> omega

theorem clampNat_upper {lo hi : Nat} (v : Nat) (h : lo ≤ hi) : clampNat v lo hi ≤ hi := by
  unfold clampNat
  split <;> [omega; skip]
  split <;> omega

/-! Output-size limiting (claim C8). -/

/-- Claim C8 (amended): `max_output_chars` is clamped into `[1, 50000]`
with default `10000` (`0 ↦ 1`, `10^6 ↦ 50000`), and the final text is
truncated to the clamped limit with the 23-character marker
`\n... [output truncated]` appended, so its length never exceeds the
clamped limit plus the marker length; output within the limit is returned
unchanged. -/
theorem run_command_output_clamp_truncate :
    parse_max_output_chars none = 10000 ∧
    parse_max_output_chars (some 0) = 1 ∧
    parse_max_output_chars (some 1000000) = 50000 ∧
    (∀ v : Option Nat,
      1 ≤ parse_max_output_chars v ∧ parse_max_output_chars v ≤ 50000) ∧
    (∀ (r : List Char) (v : Option Nat),
      (truncateFinalOutput r (parse_max_output_chars v)).length ≤
        parse_max_output_chars v + truncationMarker.length ∧
      (r.length ≤ parse_max_output_chars v →
        truncateFinalOutput r (parse_max_output_chars v) = r)) := by
  refine ⟨by decide, by decide, by decide, ?_, ?_⟩
  · intro v
    exact ⟨clampNat_lower _ (by decide), clampNat_upper _ (by decide)⟩
  · intro r v
    constructor
    · unfold truncateFinalOutput
      split
      · simp only [List.length_append, List.length_take]
        omega
      · have h2 := @clampNat_lower 1 MAX_OUTPUT_CHARS_LIMIT (v.getD DEFAULT_MAX_OUTPUT_CHARS) (by decide)
        omega
    · intro hle
      unfold truncateFinalOutput
      split
      · omega
      · rfl

/-- Witness for C8 at a short output and the limit 5000. -/
theorem run_command_output_clamp_truncate_witness :
    truncateFinalOutput (chars "hi") (parse_max_output_chars (some 5000)) = chars "hi" :=
  (run_command_output_clamp_truncate.2.2.2.2 (chars "hi") (some 5000)).2 (by decide)

/-- Counterexample for C8 as frozen: with `max_output_chars = 0`
(clamped to 1) the returned text is longer than the clamped limit,
because the truncation marker is appended after truncating. -/
theorem run_command_output_exceeds_clamped_limit :
    parse_max_output_chars (some 0) = 1 ∧
    (truncateFinalOutput (chars "ab") (parse_max_output_chars (some 0))).length >
      parse_max_output_chars (some 0) := by
  decide

/-! Framebuffer streamer (claim C10). -/

theorem initialFps_range (q : Option Nat) : 1 ≤ initialFps q ∧ initialFps q ≤ 30 :=
  ⟨clampNat_lower _ (by decide), clampNat_upper _ (by decide)⟩

theorem initialQuality_range (q : Option Nat) :
    10 ≤ initialQuality q ∧ initialQuality q ≤ 100 :=
  ⟨clampNat_lower _ (by decide), clampNat_upper _ (by decide)⟩

theorem applyStreamCmd_inv {st : StreamState}
    (hq : 10 ≤ st.currentQuality ∧ st.currentQuality ≤ 100) (c : StreamCmd) :
    (10 ≤ (applyStreamCmd st c).1.currentQuality ∧
      (applyStreamCmd st c).1.currentQuality ≤ 100) ∧
    ∀ d ∈ (applyStreamCmd st c).2, 1 ≤ d ∧ d ≤ 30 := by
  cases c with
  | pause => exact ⟨hq, by simp [applyStreamCmd]⟩
  | resume => exact ⟨hq, by simp [applyStreamCmd]⟩
  | setFps fps =>
    refine ⟨hq, ?_⟩
    intro d hd
    simp only [applyStreamCmd, List.mem_singleton] at hd
    subst hd
    exact ⟨clampNat_lower _ (by decide), clampNat_upper _ (by decide)⟩
  | setQuality quality =>
    refine ⟨⟨clampNat_lower _ (by decide), clampNat_upper _ (by decide)⟩, ?_⟩
    simp [applyStreamCmd]

theorem streamFold_inv (cmds : List StreamCmd) (acc : StreamState × List Nat)
    (h : StreamInv acc) :
    StreamInv (cmds.foldl
      (fun acc cmd =>
        let next := applyStreamCmd acc.1 cmd
        (next.1, acc.2 ++ next.2)) acc) := by
  induction cmds generalizing acc with
  | nil => exact h
  | cons c cs ih =>
    apply ih
    obtain ⟨hq, hev⟩ := h
    obtain ⟨hq2, hev2⟩ := applyStreamCmd_inv hq c
    refine ⟨hq2, ?_⟩
    intro d hd
    rcases List.mem_append.mp hd with h1 | h2
    · exact hev d h1
    · exact hev2 d h2

/-- Claim C10: for every initial `fps`/`quality` query parameter (absent
or any value, including `0`) and every sequence of control messages, each
divisor used in a `1000 / fps` computation lies in `[1, 30]` — in
particular it is never zero — and the quality passed to the capture
command lies in `[10, 100]`. -/
theorem desktop_stream_never_divides_by_zero (fpsQ qualQ : Option Nat)
    (cmds : List StreamCmd) (d : Nat) (hd : d ∈ (runStream fpsQ qualQ cmds).2) :
    (1 ≤ d ∧ d ≤ 30) ∧
    (10 ≤ (runStream fpsQ qualQ cmds).1.currentQuality ∧
      (runStream fpsQ qualQ cmds).1.currentQuality ≤ 100) := by
  have hinit : StreamInv ((initStream fpsQ qualQ).1, [(initStream fpsQ qualQ).2]) := by
    constructor
    · exact initialQuality_range qualQ
    · intro x hx
      simp only [List.mem_singleton] at hx
      subst hx
      exact initialFps_range fpsQ
  have h := streamFold_inv cmds ((initStream fpsQ qualQ).1, [(initStream fpsQ qualQ).2]) hinit
  unfold runStream
  exact ⟨h.2 d hd, h.1⟩

/-- Witness for C10: the stream opened with `fps=0` and driven by a
`SetFps 50` control uses only the divisors 1 and 30. -/
theorem desktop_stream_never_divides_by_zero_witness :
    (1 ≤ 30 ∧ 30 ≤ 30) ∧
    (10 ≤ (runStream (some 0) (some 5) [.setFps 50]).1.currentQuality ∧
      (runStream (some 0) (some 5) [.setFps 50]).1.currentQuality ≤ 100) :=
  desktop_stream_never_divides_by_zero (some 0) (some 5) [.setFps 50] 30 (by decide)

/-! Association-list lemmas shared by the store, pool and upload proofs. -/

theorem alookup_aset_self {κ ν : Type} [DecidableEq κ] (k : κ) (v : ν) (l : List (κ × ν)) :
    alookup k (aset k v l) = some v := by
  induction l with
  | nil => simp [aset, alookup]
  | cons hd t ih =>
    obtain ⟨k₀, v₀⟩ := hd
    by_cases h : k = k₀
    · simp only [aset, if_pos h]
      simp [alookup]
    · simp only [aset, if_neg h]
      simp [alookup, h, ih]

theorem alookup_aset_ne {κ ν : Type} [DecidableEq κ] {k k' : κ} (h : k ≠ k') (v : ν)
    (l : List (κ × ν)) : alookup k (aset k' v l) = alookup k l := by
  induction l with
  | nil => simp [aset, alookup, h]
  | cons hd t ih =>
    obtain ⟨k₀, v₀⟩ := hd
    by_cases h0 : k' = k₀
    · subst h0
      simp only [aset, if_pos rfl]
      simp [alookup, h]
    · simp only [aset, if_neg h0]
      by_cases h1 : k = k₀
      · simp [alookup, h1]
      · simp [alookup, h1, ih]

theorem alookup_aeraseOne_ne {κ ν : Type} [DecidableEq κ] {k k' : κ} (h : k ≠ k')
    (l : List (κ × ν)) : alookup k (aeraseOne k' l) = alookup k l := by
  induction l with
  | nil => simp [aeraseOne]
  | cons hd t ih =>
    obtain ⟨k₀, v₀⟩ := hd
    by_cases h0 : k' = k₀
    · subst h0
      simp [aeraseOne, alookup, h]
    · simp only [aeraseOne, if_neg h0]
      by_cases h1 : k = k₀
      · simp [alookup, h1]
      · simp [alookup, h1, ih]

theorem mem_aset {κ ν : Type} [DecidableEq κ] {x : κ × ν} {k : κ} {v : ν}
    {l : List (κ × ν)} (hx : x ∈ aset k v l) : x = (k, v) ∨ x ∈ l := by
  induction l with
  | nil => simp only [aset, List.mem_singleton] at hx; exact Or.inl hx
  | cons hd t ih =>
    obtain ⟨k₀, v₀⟩ := hd
    by_cases h0 : k = k₀
    · simp only [aset, if_pos h0] at hx
      rcases List.mem_cons.mp hx with h | h
      · exact Or.inl h
      · exact Or.inr (List.mem_cons_of_mem _ h)
    · simp only [aset, if_neg h0] at hx
      rcases List.mem_cons.mp hx with h | h
      · exact Or.inr (h ▸ List.mem_cons_self _ _)
      · rcases ih h with h1 | h1
        · exact Or.inl h1
        · exact Or.inr (List.mem_cons_of_mem _ h1)

theorem mem_aeraseOne {κ ν : Type} [DecidableEq κ] {x : κ × ν} {k : κ}
    {l : List (κ × ν)} (hx : x ∈ aeraseOne k l) : x ∈ l := by
  induction l with
  | nil => simp [aeraseOne] at hx
  | cons hd t ih =>
    obtain ⟨k₀, v₀⟩ := hd
    by_cases h0 : k = k₀
    · simp only [aeraseOne, if_pos h0] at hx
      exact List.mem_cons_of_mem _ hx
    · simp only [aeraseOne, if_neg h0] at hx
      rcases List.mem_cons.mp hx with h | h
      · exact h ▸ List.mem_cons_self _ _
      · exact List.mem_cons_of_mem _ (ih h)

theorem alookup_mem {κ ν : Type} [DecidableEq κ] {k : κ} {v : ν} {l : List (κ × ν)}
    (h : alookup k l = some v) : (k, v) ∈ l := by
  induction l with
  | nil => simp [alookup] at h
  | cons hd t ih =>
    obtain ⟨k₀, v₀⟩ := hd
    by_cases h0 : k = k₀
    · simp only [alookup, if_pos h0] at h
      subst h0
      cases h
      exact List.mem_cons_self _ _
    · simp only [alookup, if_neg h0] at h
      exact List.mem_cons_of_mem _ (ih h)

/-! File listing (claim C9). -/

/-- Claim C9 evaluated at the failing input: for a missing path, the
localhost fast path surfaces the `read_dir` failure as HTTP 500, while
the SSH path returns the empty list the spec promises for both. -/
theorem fs_list_missing_path_divergence :
    fsList true [] (chars "/nonexistent") =
      .error (500, chars "No such file or directory") ∧
    fsList false [] (chars "/nonexistent") = .ok [] :=
  ⟨rfl, rfl⟩

/-! SSRF guard (claim C4). -/

/-- Claim C4 evaluated at the failing input `http://[::1]/`:
`is_internal_ip` classifies the IPv6 loopback as internal, yet
`validate_url_for_ssrf` accepts the URL, because the bracketed
`host_str` `[::1]` fails `IpAddr` parsing and the resolver rejects the
bracketed literal, so both rejection paths are skipped.  The IPv4
metadata address is rejected as the claim states, exhibiting the
asymmetry. -/
theorem ssrf_guard_accepts_ipv6_loopback_literal :
    is_internal_ip (.v6 ⟨0, 0, 0, 0, 0, 0, 0, 1⟩) = true ∧
    validate_url_for_ssrf (chars "http") (some (.ipv6 ⟨0, 0, 0, 0, 0, 0, 0, 1⟩))
      (fun _ => none) = .ok () ∧
    validate_url_for_ssrf (chars "http") (some (.ipv4 ⟨169, 254, 169, 254⟩))
      (fun _ => none) =
      .error (chars "Requests to internal IP addresses are not allowed") :=
  ⟨rfl, rfl, rfl⟩

/-! Workspace store persistence (claim C2). -/

/-- Claim C2 (amended): after a successful `add`, `update`, or
non-default `delete`, the on-disk JSON equals the serialization of the
in-memory workspace values in map order (the code applies no sorting),
and each save is a create-directory followed by one direct whole-file
write — no rename is ever emitted. -/
theorem workspace_store_persistence (s : StoreSt) (w : WorkspaceM) (i : Nat)
    (hup : amem w.wid s.map = true) (hne : i ≠ DEFAULT_WORKSPACE_ID)
    (hdel : amem i s.map = true) :
    (storeAdd s w).disk = some (valuesOf (storeAdd s w).map) ∧
    (storeUpdate s w).1.disk = some (valuesOf (storeUpdate s w).1.map) ∧
    (storeDelete s i).1.disk = some (valuesOf (storeDelete s i).1.map) ∧
    saveOps s.map = [.createDirAll, .writeFile (valuesOf s.map)] ∧
    (∀ op ∈ saveOps s.map, isRenameOp op = false) := by
  refine ⟨rfl, ?_, ?_, rfl, ?_⟩
  · simp [storeUpdate, hup, saveStore]
  · simp [storeDelete, hne, hdel, saveStore]
  · intro op hop
    simp only [saveOps, List.mem_cons, List.not_mem_nil, or_false] at hop
    rcases hop with rfl | rfl <;> rfl

/-- Witness for C2 on a concrete store already holding workspace id 1. -/
theorem workspace_store_persistence_witness :
    (storeAdd (storeAdd (constructStore none []) ⟨1, "b", .host, .ready⟩)
      ⟨1, "b2", .host, .ready⟩).disk =
      some (valuesOf (storeAdd (storeAdd (constructStore none [])
        ⟨1, "b", .host, .ready⟩) ⟨1, "b2", .host, .ready⟩).map) :=
  (workspace_store_persistence (storeAdd (constructStore none []) ⟨1, "b", .host, .ready⟩)
    ⟨1, "b2", .host, .ready⟩ 1 (by decide) (by decide) (by decide)).1

/-- Counterexample for C2 as frozen: on the store holding workspaces
named `b` then `a` (plus the default `host`), the file content is not the
name-sorted serialization, and the save trace contains no rename, so the
write is not write-then-rename. -/
theorem workspace_store_unsorted_direct_write :
    (storeAdd (storeAdd (constructStore none []) ⟨1, "b", .host, .ready⟩)
        ⟨2, "a", .host, .ready⟩).disk ≠
      some (sortByName (valuesOf (storeAdd (storeAdd (constructStore none [])
        ⟨1, "b", .host, .ready⟩) ⟨2, "a", .host, .ready⟩).map)) ∧
    ((saveOps (storeAdd (storeAdd (constructStore none []) ⟨1, "b", .host, .ready⟩)
        ⟨2, "a", .host, .ready⟩).map).all fun op => !isRenameOp op) = true :=
  ⟨by decide, by decide⟩

/-! Workspace store default-workspace invariant (claim C5). -/

theorem mem_valuesOf {w : WorkspaceM} {m : List (Nat × WorkspaceM)} :
    w ∈ valuesOf m ↔ ∃ k, (k, w) ∈ m := by
  unfold valuesOf
  simp only [List.mem_map]
  constructor
  · rintro ⟨⟨k, v⟩, hkv, rfl⟩
    exact ⟨k, hkv⟩
  · rintro ⟨k, hk⟩
    exact ⟨(k, w), hk, rfl⟩

theorem lastWith_none_of_all {k : Nat} {l : List WorkspaceM}
    (h : ∀ w ∈ l, w.wid ≠ k) : lastWith k l = none := by
  induction l with
  | nil => rfl
  | cons w t ih =>
    have ht := ih fun x hx => h x (List.mem_cons_of_mem _ hx)
    simp only [lastWith, ht]
    simp [h w (List.mem_cons_self _ _)]

theorem lastWith_some {k : Nat} {l : List WorkspaceM} {x : WorkspaceM}
    (h : lastWith k l = some x) : x ∈ l ∧ x.wid = k := by
  induction l with
  | nil => simp [lastWith] at h
  | cons w t ih =>
    simp only [lastWith] at h
    cases ht : lastWith k t with
    | some y =>
      rw [ht] at h
      cases h
      obtain ⟨hm, hw⟩ := ih ht
      exact ⟨List.mem_cons_of_mem _ hm, hw⟩
    | none =>
      rw [ht] at h
      by_cases hw : w.wid = k
      · rw [if_pos hw] at h
        cases h
        exact ⟨List.mem_cons_self _ _, hw⟩
      · rw [if_neg hw] at h
        cases h

theorem lastWith_isSome_of_mem {k : Nat} {l : List WorkspaceM} {w : WorkspaceM}
    (hw : w ∈ l) (hk : w.wid = k) : (lastWith k l).isSome := by
  induction l with
  | nil => simp at hw
  | cons x t ih =>
    simp only [lastWith]
    cases ht : lastWith k t with
    | some y => rfl
    | none =>
      rcases List.mem_cons.mp hw with rfl | hmem
      · simp [hk]
      · have := ih hmem
        rw [ht] at this
        simp at this

theorem alookup_foldIns (l : List WorkspaceM) (m : List (Nat × WorkspaceM)) (k : Nat) :
    alookup k (l.foldl (fun m w => aset w.wid w m) m) =
      match lastWith k l with
      | some x => some x
      | none => alookup k m := by
  induction l generalizing m with
  | nil => simp [lastWith]
  | cons w t ih =>
    simp only [List.foldl_cons, lastWith]
    rw [ih]
    cases ht : lastWith k t with
    | some y => simp
    | none =>
      by_cases hw : w.wid = k
      · simp only [if_pos hw]
        subst hw
        simp [alookup_aset_self]
      · simp only [if_neg hw]
        exact alookup_aset_ne (fun he => hw he.symm) _ _

theorem mem_foldIns {l : List WorkspaceM} {m : List (Nat × WorkspaceM)}
    {kv : Nat × WorkspaceM} (h : kv ∈ l.foldl (fun m w => aset w.wid w m) m) :
    (kv.2 ∈ l ∧ kv.1 = kv.2.wid) ∨ kv ∈ m := by
  induction l generalizing m with
  | nil => exact Or.inr h
  | cons w t ih =>
    simp only [List.foldl_cons] at h
    rcases ih h with ⟨hm, hk⟩ | hmem
    · exact Or.inl ⟨List.mem_cons_of_mem _ hm, hk⟩
    · rcases mem_aset hmem with rfl | hold
      · exact Or.inl ⟨List.mem_cons_self _ _, rfl⟩
      · exact Or.inr hold

theorem mapInv_default {m : List (Nat × WorkspaceM)} (h : MapInv m) :
    ∃ w, alookup DEFAULT_WORKSPACE_ID m = some w ∧ w.status = .ready ∧
      w.wid = DEFAULT_WORKSPACE_ID := by
  obtain ⟨hcons, ⟨w, hw⟩, hready⟩ := h
  have hmem := alookup_mem hw
  have hwid : w.wid = DEFAULT_WORKSPACE_ID := (hcons _ hmem).symm
  exact ⟨w, hw, hready w (mem_valuesOf.mpr ⟨_, hmem⟩) hwid, hwid⟩

theorem saveStore_diskInv {m : List (Nat × WorkspaceM)} (h : MapInv m) :
    DiskInv (some (valuesOf m)) := by
  intro l hl
  cases hl
  obtain ⟨w, hw, hready, hwid⟩ := mapInv_default h
  refine ⟨⟨w, mem_valuesOf.mpr ⟨_, alookup_mem hw⟩, hwid⟩, ?_⟩
  exact h.2.2

theorem constructStore_inv (disk : Option (List WorkspaceM)) (orphans : List WorkspaceM)
    (hd : DiskInv disk) (ho : ∀ w ∈ orphans, OrphanOk w) :
    StoreInv (constructStore disk orphans) := by
  have hm0cons : ∀ kv ∈ loadMap disk, kv.1 = kv.2.wid := by
    intro kv hkv
    cases disk with
    | none => simp [loadMap] at hkv
    | some l =>
      simp only [loadMap] at hkv
      rcases mem_foldIns hkv with ⟨_, hk⟩ | hin
      · exact hk
      · simp at hin
  have hm0ready : ∀ w ∈ valuesOf (loadMap disk), w.wid = DEFAULT_WORKSPACE_ID →
      w.status = .ready := by
    intro w hw hwid
    obtain ⟨k, hk⟩ := mem_valuesOf.mp hw
    cases disk with
    | none => simp [loadMap] at hk
    | some l =>
      simp only [loadMap] at hk
      rcases mem_foldIns hk with ⟨hmem, _⟩ | hin
      · exact (hd l rfl).2 w hmem hwid
      · simp at hin
  -- the map after the ensure-default step
  have hm1 : MapInv (if amem DEFAULT_WORKSPACE_ID (loadMap disk) then loadMap disk
      else aset DEFAULT_WORKSPACE_ID defaultHostWorkspace (loadMap disk)) := by
    by_cases hmem : amem DEFAULT_WORKSPACE_ID (loadMap disk)
    · rw [if_pos hmem]
      refine ⟨hm0cons, ?_, hm0ready⟩
      unfold amem at hmem
      cases hl : alookup DEFAULT_WORKSPACE_ID (loadMap disk) with
      | none => rw [hl] at hmem; simp at hmem
      | some w => exact ⟨w, rfl⟩
    · rw [if_neg hmem]
      refine ⟨?_, ?_, ?_⟩
      · intro kv hkv
        rcases mem_aset hkv with rfl | hold
        · rfl
        · exact hm0cons _ hold
      · exact ⟨defaultHostWorkspace, alookup_aset_self _ _ _⟩
      · intro w hw hwid
        obtain ⟨k, hk⟩ := mem_valuesOf.mp hw
        rcases mem_aset hk with he | hold
        · cases he
          rfl
        · exact hm0ready w (mem_valuesOf.mpr ⟨_, hold⟩) hwid
  set m1 := (if amem DEFAULT_WORKSPACE_ID (loadMap disk) then loadMap disk
      else aset DEFAULT_WORKSPACE_ID defaultHostWorkspace (loadMap disk)) with hm1def
  have hm2 : MapInv (orphans.foldl (fun m w => aset w.wid w m) m1) := by
    refine ⟨?_, ?_, ?_⟩
    · intro kv hkv
      rcases mem_foldIns hkv with ⟨_, hk⟩ | hin
      · exact hk
      · exact hm1.1 _ hin
    · obtain ⟨w, hw⟩ := hm1.2.1
      refine ⟨w, ?_⟩
      rw [alookup_foldIns]
      rw [lastWith_none_of_all fun x hx => (ho x hx).1]
      exact hw
    · intro w hw hwid
      obtain ⟨k, hk⟩ := mem_valuesOf.mp hw
      rcases mem_foldIns hk with ⟨hmem, _⟩ | hin
      · exact absurd hwid (ho w hmem).1
      · exact hm1.2.2 w (mem_valuesOf.mpr ⟨_, hin⟩) hwid
  refine ⟨hm2, ?_⟩
  exact saveStore_diskInv hm2

theorem storeAdd_inv {s : StoreSt} {w : WorkspaceM} (hs : StoreInv s)
    (hw : w.wid ≠ DEFAULT_WORKSPACE_ID) : StoreInv (storeAdd s w) := by
  obtain ⟨⟨hcons, hsome, hready⟩, _⟩ := hs
  have hmap : MapInv (aset w.wid w s.map) := by
    refine ⟨?_, ?_, ?_⟩
    · intro kv hkv
      rcases mem_aset hkv with rfl | hold
      · rfl
      · exact hcons _ hold
    · obtain ⟨x, hx⟩ := hsome
      exact ⟨x, (alookup_aset_ne (fun he => hw he.symm) _ _).trans hx⟩
    · intro x hx hwid
      obtain ⟨k, hk⟩ := mem_valuesOf.mp hx
      rcases mem_aset hk with he | hold
      · cases he
        exact absurd hwid hw
      · exact hready x (mem_valuesOf.mpr ⟨_, hold⟩) hwid
  exact ⟨hmap, saveStore_diskInv hmap⟩

theorem storeDelete_inv {s : StoreSt} (i : Nat) (hs : StoreInv s) :
    StoreInv (storeDelete s i).1 := by
  unfold storeDelete
  by_cases h0 : i = DEFAULT_WORKSPACE_ID
  · rw [if_pos h0]
    exact hs
  · rw [if_neg h0]
    by_cases hmem : amem i s.map
    · rw [if_pos hmem]
      obtain ⟨⟨hcons, hsome, hready⟩, _⟩ := hs
      have hmap : MapInv (aeraseOne i s.map) := by
        refine ⟨?_, ?_, ?_⟩
        · intro kv hkv
          exact hcons _ (mem_aeraseOne hkv)
        · obtain ⟨x, hx⟩ := hsome
          exact ⟨x, (alookup_aeraseOne_ne (fun he => h0 he.symm) _).trans hx⟩
        · intro x hx hwid
          obtain ⟨k, hk⟩ := mem_valuesOf.mp hx
          exact hready x (mem_valuesOf.mpr ⟨_, mem_aeraseOne hk⟩) hwid
      exact ⟨hmap, saveStore_diskInv hmap⟩
    · rw [if_neg hmem]
      exact hs

theorem reachStore_inv (s : StoreSt) (h : ReachStore s) : StoreInv s := by
  induction h with
  | boot orphans ho => exact constructStore_inv none orphans (by intro l hl; cases hl) ho
  | addHost s i nm hs hi ih => exact storeAdd_inv ih hi
  | addChroot s i nm hs hi ih => exact storeAdd_inv ih hi
  | del s i hs ih => exact storeDelete_inv i ih
  | restart s orphans hs ho ih => exact constructStore_inv s.disk orphans ih.2 ho

/-- Claim C5: in every reachable state of the workspace store the nil-id
default workspace exists with status `Ready`; construction inserts
`Workspace::default_host` whenever the loaded file lacks a nil-id entry;
and deleting the nil uuid is refused — a typed 400 error at the API layer,
`false` at the store — with the store map and the on-disk file unchanged. -/
theorem workspace_store_default_ready
    (s : StoreSt) (hs : ReachStore s)
    (disk : Option (List WorkspaceM)) (orphans : List WorkspaceM)
    (hmiss : amem DEFAULT_WORKSPACE_ID (loadMap disk) = false)
    (horph : ∀ w ∈ orphans, w.wid ≠ DEFAULT_WORKSPACE_ID) (t : StoreSt) :
    (∃ w, alookup DEFAULT_WORKSPACE_ID s.map = some w ∧ w.status = .ready ∧
      w.wid = DEFAULT_WORKSPACE_ID) ∧
    alookup DEFAULT_WORKSPACE_ID (constructStore disk orphans).map =
      some defaultHostWorkspace ∧
    storeDelete t DEFAULT_WORKSPACE_ID = (t, false) ∧
    apiDeleteWorkspace t DEFAULT_WORKSPACE_ID =
      (.error (400, "Cannot delete default host workspace"), t) := by
  refine ⟨mapInv_default (reachStore_inv s hs).1, ?_, rfl, rfl⟩
  show alookup DEFAULT_WORKSPACE_ID
      (orphans.foldl (fun m w => aset w.wid w m)
        (if amem DEFAULT_WORKSPACE_ID (loadMap disk) then loadMap disk
         else aset DEFAULT_WORKSPACE_ID defaultHostWorkspace (loadMap disk))) =
    some defaultHostWorkspace
  rw [alookup_foldIns, lastWith_none_of_all horph, hmiss]
  simp [alookup_aset_self]

/-- Witness for C5 at the freshly booted store. -/
theorem workspace_store_default_ready_witness :
    (∃ w, alookup DEFAULT_WORKSPACE_ID (constructStore none []).map = some w ∧
      w.status = .ready ∧ w.wid = DEFAULT_WORKSPACE_ID) ∧
    alookup DEFAULT_WORKSPACE_ID (constructStore none []).map =
      some defaultHostWorkspace ∧
    storeDelete (constructStore none []) DEFAULT_WORKSPACE_ID =
      (constructStore none [], false) ∧
    apiDeleteWorkspace (constructStore none []) DEFAULT_WORKSPACE_ID =
      (.error (400, "Cannot delete default host workspace"), constructStore none []) :=
  workspace_store_default_ready (constructStore none [])
    (ReachStore.boot [] (by intro w hw; cases hw)) none []
    (by decide) (by intro w hw; cases hw) (constructStore none [])

/-! Chunked upload assembly (claim C3). -/

theorem alookup_aerase_self {κ ν : Type} [DecidableEq κ] (k : κ) (l : List (κ × ν)) :
    alookup k (aerase k l) = none := by
  induction l with
  | nil => rfl
  | cons hd t ih =>
    obtain ⟨k₀, v₀⟩ := hd
    by_cases h0 : k = k₀
    · simp only [aerase, if_pos h0]
      exact ih
    · simp only [aerase, if_neg h0]
      simp only [alookup, if_neg h0]
      exact ih

theorem upload_chunk_ok {path uid : List Char} (h1 : ¬trimChars path = [])
    (h2 : ¬sanitize_path_component uid = []) (st : ChunkState) (i : Nat) (b : List Nat) :
    upload_chunk st path uid i b = .ok (chunkWrite st (sanitize_path_component uid) i b) := by
  unfold upload_chunk
  rw [if_neg h1, if_neg h2]

/-- Directory content for the upload id after a run of `upload_chunk`
calls starting at index `m`: indices in `[m, m + |cs|)` hold the uploaded
bytes, all other indices are untouched, and files and foreign directories
are untouched. -/
theorem uploadChunksFrom_ok {path uid : List Char} (h1 : ¬trimChars path = [])
    (h2 : ¬sanitize_path_component uid = []) (cs : List (List Nat)) :
    ∀ (m : Nat) (st : ChunkState), ∃ st1,
      uploadChunksFrom st path uid m cs = .ok st1 ∧
      st1.files = st.files ∧
      (∀ i, m ≤ i → i < m + cs.length →
        alookup i ((alookup (chunkDirName (sanitize_path_component uid)) st1.dirs).getD []) =
          cs[i - m]?) ∧
      (∀ i, i < m ∨ m + cs.length ≤ i →
        alookup i ((alookup (chunkDirName (sanitize_path_component uid)) st1.dirs).getD []) =
          alookup i ((alookup (chunkDirName (sanitize_path_component uid)) st.dirs).getD [])) := by
  induction cs with
  | nil =>
    intro m st
    refine ⟨st, rfl, rfl, ?_, fun i _ => rfl⟩
    intro i ha hb
    exfalso
    simp only [List.length_nil, Nat.add_zero] at hb
    omega
  | cons c rest ih =>
    intro m st
    set dk := chunkDirName (sanitize_path_component uid) with hdk
    set stA : ChunkState := chunkWrite st (sanitize_path_component uid) m c with hstA
    have hdirA : (alookup dk stA.dirs).getD [] =
        aset m c ((alookup dk st.dirs).getD []) := by
      rw [hstA, hdk]
      unfold chunkWrite
      simp [alookup_aset_self]
    obtain ⟨st1, hrun, hfiles, hin, hout⟩ := ih (m + 1) stA
    have hfilesA : stA.files = st.files := by rw [hstA]; rfl
    refine ⟨st1, ?_, hfiles.trans hfilesA, ?_, ?_⟩
    · simp only [uploadChunksFrom]
      rw [upload_chunk_ok h1 h2 st m c]
      exact hrun
    · intro i him hilt
      simp only [List.length_cons] at hilt
      by_cases hieq : i = m
      · subst hieq
        rw [hout i (Or.inl (by omega)), hdirA]
        simp [alookup_aset_self]
      · have hin2 : (m + 1) ≤ i := by omega
        have hlt2 : i < (m + 1) + rest.length := by omega
        rw [hin i hin2 hlt2]
        have hsub : i - m = (i - (m + 1)) + 1 := by omega
        rw [hsub]
        simp
    · intro i hi
      simp only [List.length_cons] at hi
      have houti : i < m + 1 ∨ (m + 1) + rest.length ≤ i := by omega
      rw [hout i houti, hdirA]
      have hne : i ≠ m := by omega
      exact alookup_aset_ne hne _ _

/-- Success of the assembly loop when every chunk below `total` is
present: the result is the accumulated prefix followed by the
concatenation of the remaining chunks. -/
theorem assembleGo_ok (dir : List (Nat × List Nat)) (cs : List (List Nat))
    (h : ∀ i, i < cs.length → alookup i dir = cs[i]?) :
    ∀ (fuel j : Nat) (acc : List Nat), cs.length - j = fuel → j ≤ cs.length →
      assembleGo dir cs.length j acc = .ok (acc ++ (cs.drop j).flatten) := by
  intro fuel
  induction fuel with
  | zero =>
    intro j acc hfuel hj
    have hje : j = cs.length := by omega
    subst hje
    rw [assembleGo.eq_def]
    simp
  | succ n ihn =>
    intro j acc hfuel hj
    have hjlt : j < cs.length := by omega
    have hsome : cs[j]? = some cs[j] := List.getElem?_eq_getElem hjlt
    have hstep : assembleGo dir cs.length j acc =
        assembleGo dir cs.length (j + 1) (acc ++ cs[j]) := by
      rw [assembleGo.eq_def]
      simp only [if_pos hjlt, h j hjlt, hsome]
    have hflat : (List.drop j cs).flatten = cs[j] ++ (List.drop (j + 1) cs).flatten := by
      rw [List.drop_eq_getElem_cons hjlt, List.flatten_cons]
    rw [hstep, ihn (j + 1) (acc ++ cs[j]) (by omega) (by omega), hflat]
    simp [List.append_assoc]

/-- Claim C3: uploading chunks `0, …, N-1` under an upload id and then
finalizing with `total_chunks = N` succeeds, leaves the destination file
`<path>/<sanitized name>` holding the concatenation of the chunk bytes in
index order, and removes the per-id chunk directory. -/
theorem chunked_upload_assembles (st : ChunkState) (path uploadId fileName : List Char)
    (cs : List (List Nat))
    (h1 : ¬trimChars path = [])
    (h2 : ¬sanitize_path_component uploadId = [])
    (h3 : ¬sanitize_path_component fileName = []) :
    ∃ st1 st2,
      uploadChunks st path uploadId cs = .ok st1 ∧
      upload_finalize st1 path uploadId fileName cs.length =
        .ok (st2, destPath path (sanitize_path_component fileName)) ∧
      alookup (destPath path (sanitize_path_component fileName)) st2.files =
        some cs.flatten ∧
      alookup (chunkDirName (sanitize_path_component uploadId)) st2.dirs = none := by
  obtain ⟨st1, hrun, hfiles, hin, hout⟩ := uploadChunksFrom_ok h1 h2 cs 0 st
  have hdirfull : ∀ i, i < cs.length →
      alookup i ((alookup (chunkDirName (sanitize_path_component uploadId)) st1.dirs).getD []) =
        cs[i]? := by
    intro i hi
    simpa using hin i (Nat.zero_le _) (by omega)
  have hasm := assembleGo_ok
    ((alookup (chunkDirName (sanitize_path_component uploadId)) st1.dirs).getD [])
    cs hdirfull (cs.length - 0) 0 [] rfl (Nat.zero_le _)
  simp only [List.drop_zero, List.nil_append] at hasm
  have hfin : upload_finalize st1 path uploadId fileName cs.length =
      .ok (⟨aerase (chunkDirName (sanitize_path_component uploadId)) st1.dirs,
        aset (destPath path (sanitize_path_component fileName)) cs.flatten
          (aerase (assembledName (sanitize_path_component uploadId))
            (aset (assembledName (sanitize_path_component uploadId)) cs.flatten st1.files))⟩,
        destPath path (sanitize_path_component fileName)) := by
    unfold upload_finalize
    rw [if_neg h2, if_neg h3]
    simp only [hasm]
  refine ⟨st1, _, hrun, hfin, ?_, ?_⟩
  · exact alookup_aset_self _ _ _
  · exact alookup_aerase_self _ _

/-- Witness for C3: the specification's concrete scenario — chunks `abc`,
`de`, `f` under upload id `u1`, finalized as `x.bin` into `/tmp/out/` —
yields `/tmp/out/x.bin` with content `abcdef` and no chunk directory. -/
theorem chunked_upload_assembles_witness :
    ∃ st1 st2,
      uploadChunks ⟨[], []⟩ (chars "/tmp/out/") (chars "u1")
        [[97, 98, 99], [100, 101], [102]] = .ok st1 ∧
      upload_finalize st1 (chars "/tmp/out/") (chars "u1") (chars "x.bin")
        [[97, 98, 99], [100, 101], [102]].length =
        .ok (st2, destPath (chars "/tmp/out/") (sanitize_path_component (chars "x.bin"))) ∧
      alookup (destPath (chars "/tmp/out/") (sanitize_path_component (chars "x.bin")))
        st2.files = some [[97, 98, 99], [100, 101], [102]].flatten ∧
      alookup (chunkDirName (sanitize_path_component (chars "u1"))) st2.dirs = none :=
  chunked_upload_assembles ⟨[], []⟩ (chars "/tmp/out/") (chars "u1") (chars "x.bin")
    [[97, 98, 99], [100, 101], [102]] (by decide) (by decide) (by decide)

/-! Command denylist (claim C7). -/

theorem lpre_nil_right {p : List Char} (h : lpre p [] = true) : p = [] := by
  cases p with
  | nil => rfl
  | cons a t => simp [lpre] at h

theorem lpre_refl (p : List Char) : lpre p p = true := by
  induction p with
  | nil => rfl
  | cons a t ih => simp [lpre, ih]

theorem lpre_extend {a b : List Char} (c : List Char) (h : lpre a b = true) :
    lpre a (b ++ c) = true := by
  induction a generalizing b with
  | nil => rfl
  | cons x xs ih =>
    cases b with
    | nil => simp [lpre] at h
    | cons y ys =>
      simp only [lpre] at h ⊢
      by_cases hxy : x = y
      · rw [if_pos hxy] at h ⊢
        exact ih h
      · rw [if_neg hxy] at h
        cases h

theorem lsuf_refl (p : List Char) : lsuf p p = true :=
  lpre_refl p.reverse

theorem lsuf_append_right {s t : List Char} (x : List Char) (h : lsuf s t = true) :
    lsuf s (x ++ t) = true := by
  unfold lsuf at h ⊢
  rw [List.reverse_append]
  exact lpre_extend _ h

theorem lpre_append_split {u p t : List Char} :
    lpre (u ++ p) t = (lpre u t && lpre p (t.drop u.length)) := by
  induction u generalizing t with
  | nil => simp [lpre]
  | cons a u' ih =>
    cases t with
    | nil => simp [lpre]
    | cons b t' =>
      simp only [List.cons_append, lpre, List.length_cons, List.drop_succ_cons,
        List.append_eq]
      by_cases hab : a = b
      · rw [if_pos hab, if_pos hab, ih]
      · rw [if_neg hab, if_neg hab]
        rfl

theorem lpre_total {t : List Char} :
    ∀ {a b : List Char}, lpre a t = true → lpre b t = true →
      lpre a b = true ∨ lpre b a = true := by
  induction t with
  | nil =>
    intro a b ha hb
    rw [lpre_nil_right ha]
    exact Or.inl rfl
  | cons c t' ih =>
    intro a b ha hb
    cases a with
    | nil => exact Or.inl rfl
    | cons x a' =>
      cases b with
      | nil => exact Or.inr rfl
      | cons y b' =>
        simp only [lpre] at ha hb
        by_cases hx : x = c
        · by_cases hy : y = c
          · rw [if_pos hx] at ha
            rw [if_pos hy] at hb
            have hxy : x = y := hx.trans hy.symm
            rcases ih ha hb with h | h
            · exact Or.inl (by simp [lpre, hxy, h])
            · exact Or.inr (by simp [lpre, hxy.symm, h])
          · rw [if_neg hy] at hb
            cases hb
        · rw [if_neg hx] at ha
          cases ha

theorem patternHit_elim {t p : List Char} (h : patternHit t p = true) :
    ∃ u ∈ wrapperOptions, lpre (u ++ p) t = true := by
  unfold patternHit at h
  rcases Bool.or_eq_true_iff.mp h with hdirect | hwrap
  · exact ⟨[], List.mem_cons_self _ _, by simpa using hdirect⟩
  · obtain ⟨pre, hpre, hcond⟩ := List.any_eq_true.mp hwrap
    obtain ⟨h1, h2⟩ := Bool.and_eq_true_iff.mp hcond
    refine ⟨pre, List.mem_cons_of_mem _ hpre, ?_⟩
    rw [lpre_append_split, h1, h2]
    rfl

theorem suggestionsCoherent_true : suggestionsCoherent = true := by decide

theorem suggestions_agree {t p s q u : List Char}
    (hp : (p, s) ∈ DANGEROUS_PATTERNS) (hq : (q, u) ∈ DANGEROUS_PATTERNS)
    (hhp : patternHit t p = true) (hhq : patternHit t q = true) : u = s := by
  obtain ⟨a, ha, hap⟩ := patternHit_elim hhp
  obtain ⟨b, hb, hbq⟩ := patternHit_elim hhq
  have hcomp := lpre_total hap hbq
  have hco := suggestionsCoherent_true
  unfold suggestionsCoherent at hco
  rw [List.all_eq_true] at hco
  have hco2 := List.all_eq_true.mp (hco _ hp) _ hq
  rcases Bool.or_eq_true_iff.mp hco2 with heq | hincomp
  · exact (of_decide_eq_true heq).symm
  · exfalso
    have hincomp2 := List.all_eq_true.mp (List.all_eq_true.mp hincomp _ ha) _ hb
    obtain ⟨h1, h2⟩ := Bool.and_eq_true_iff.mp hincomp2
    rcases hcomp with h | h
    · rw [h] at h1
      cases h1
    · rw [h] at h2
      cases h2

theorem validate_findSome_hit {t p s : List Char} :
    ∀ L : List (List Char × List Char), (p, s) ∈ L → patternHit t p = true →
      (∀ q u, (q, u) ∈ L → patternHit t q = true → u = s) →
      ∃ msg, (L.findSome? fun ps =>
          if patternHit t ps.1 then some (blockMessage ps.1 ps.2) else none) = some msg ∧
        lsuf s msg = true := by
  intro L
  induction L with
  | nil =>
    intro hmem
    cases hmem
  | cons hd tl ih =>
    intro hmem hhit hagree
    by_cases hh : patternHit t hd.1 = true
    · refine ⟨blockMessage hd.1 hd.2, ?_, ?_⟩
      · simp only [List.findSome?]
        rw [if_pos hh]
      · have hs : hd.2 = s := hagree hd.1 hd.2 (by cases hd; exact List.mem_cons_self _ _) hh
        rw [hs]
        unfold blockMessage
        exact lsuf_append_right _ (lsuf_refl s)
    · rcases List.mem_cons.mp hmem with heq | htl
      · rw [← heq] at hh
        exact absurd hhit hh
      · obtain ⟨msg, hfind, hsuf⟩ := ih htl hhit
          (fun q u hqu hq => hagree q u (List.mem_cons_of_mem _ hqu) hq)
        refine ⟨msg, ?_, hsuf⟩
        simp only [List.findSome?]
        rw [if_neg hh]
        exact hfind

/-- Claim C7: for every command whose trimmed form starts with a
dangerous pattern — directly or after one `sudo `/`time `/`nice `/
`nohup ` wrapper — `validate_command` returns an error message ending in
(hence containing) that pattern's suggestion, and `RunCommand::execute`
blocks the command without spawning a process. -/
theorem run_command_blocks_dangerous (cmd p s : List Char)
    (hmem : (p, s) ∈ DANGEROUS_PATTERNS)
    (hhit : patternHit (trimChars cmd) p = true) :
    ∃ msg, validate_command cmd = some msg ∧ lsuf s msg = true ∧
      runCommandOutcome cmd = .blocked msg := by
  obtain ⟨msg, hfind, hsuf⟩ := validate_findSome_hit DANGEROUS_PATTERNS hmem hhit
    (fun q u hqu hq => suggestions_agree hmem hqu hhit hq)
  have hval : validate_command cmd = some msg := hfind
  refine ⟨msg, hval, hsuf, ?_⟩
  unfold runCommandOutcome
  rw [hval]

/-- Witness for C7 at the specification's concrete command
`sudo find / -name foo`: the suggestion about `find /root/work/` appears
in the error and no process is spawned. -/
theorem run_command_blocks_dangerous_witness :
    ∃ msg, validate_command (chars "sudo find / -name foo") = some msg ∧
      lsuf suggFind msg = true ∧
      runCommandOutcome (chars "sudo find / -name foo") = .blocked msg :=
  run_command_blocks_dangerous (chars "sudo find / -name foo") (chars "find /") suggFind
    (by decide) (by decide)

/-! Skill frontmatter (claim C6). -/

theorem findSub_some_lpre {p : List Char} :
    ∀ {l : List Char} {i : Nat}, findSub p l = some i → lpre p (l.drop i) = true := by
  intro l
  induction l with
  | nil =>
    intro i h
    simp only [findSub] at h
    split at h
    · cases h
      subst_vars
      rfl
    · cases h
  | cons c t ih =>
    intro i h
    simp only [findSub] at h
    split at h
    · cases h
      simpa using by assumption
    · obtain ⟨j, hj, rfl⟩ := Option.map_eq_some'.mp h
      simpa using ih hj

theorem findSub_isSome_of_drop {p : List Char} :
    ∀ {l : List Char} {k : Nat}, lpre p (l.drop k) = true → ∃ i, findSub p l = some i := by
  intro l
  induction l with
  | nil =>
    intro k h
    simp only [List.drop_nil] at h
    rw [lpre_nil_right h]
    exact ⟨0, rfl⟩
  | cons c t ih =>
    intro k h
    by_cases hp : lpre p (c :: t) = true
    · exact ⟨0, by simp [findSub, hp]⟩
    · cases k with
      | zero => exact absurd h hp
      | succ k' =>
        rw [List.drop_succ_cons] at h
        obtain ⟨j, hj⟩ := ih h
        exact ⟨j + 1, by simp [findSub, hp, hj]⟩

theorem lpre_cons_head {c : Char} {p t : List Char} (h : lpre (c :: p) t = true) :
    ∃ t', t = c :: t' := by
  cases t with
  | nil => simp [lpre] at h
  | cons d t' =>
    simp only [lpre] at h
    by_cases hcd : c = d
    · exact ⟨t', by rw [hcd]⟩
    · rw [if_neg hcd] at h
      cases h

theorem lpre_decompose {p : List Char} :
    ∀ {t : List Char}, lpre p t = true → t = p ++ t.drop p.length := by
  induction p with
  | nil => intro t _; simp
  | cons c p' ih =>
    intro t h
    obtain ⟨t', rfl⟩ := lpre_cons_head h
    have h' : lpre p' t' = true := by
      simpa [lpre] using h
    calc c :: t' = c :: (p' ++ t'.drop p'.length) := by rw [← ih h']
    _ = (c :: p') ++ (c :: t').drop (c :: p').length := by simp

/-- A `---` match inside `\nname: ` ++ r cannot start before index 7: the
first seven characters are not dashes. -/
theorem lpre_dash_bound {r : List Char} {i : Nat}
    (h : lpre (chars "---") ((chars "\nname: " ++ r).drop i) = true) : 7 ≤ i := by
  by_contra hlt
  push_neg at hlt
  interval_cases i <;> exact Bool.noConfusion h

theorem splitOnChar_ne_nil (c : Char) (l : List Char) :
    ∃ h rest, splitOnChar c l = h :: rest := by
  induction l with
  | nil => exact ⟨[], [], rfl⟩
  | cons x t ih =>
    by_cases hx : x = c
    · exact ⟨[], splitOnChar c t, by simp [splitOnChar, hx]⟩
    · obtain ⟨h, rest, hh⟩ := ih
      exact ⟨x :: h, rest, by simp [splitOnChar, hx, hh]⟩

theorem splitOnChar_pref :
    ∀ a w : List Char, (∀ x ∈ a, ¬x = '\n') →
      ∃ u rest, splitOnChar '\n' (a ++ w) = (a ++ u) :: rest := by
  intro a
  induction a with
  | nil =>
    intro w _
    obtain ⟨h, rest, hh⟩ := splitOnChar_ne_nil '\n' w
    exact ⟨h, rest, by simpa using hh⟩
  | cons x a' ih =>
    intro w ha
    have hx : ¬x = '\n' := ha x (List.mem_cons_self _ _)
    obtain ⟨u, rest, hu⟩ := ih w (fun y hy => ha y (List.mem_cons_of_mem _ hy))
    refine ⟨u, rest, ?_⟩
    rw [List.cons_append]
    simp [splitOnChar, hx, hu]

theorem dropWhile_append_cases (p : Char → Bool) (a b : List Char) :
    List.dropWhile p (a ++ b) =
      if (List.dropWhile p a).isEmpty then List.dropWhile p b
      else List.dropWhile p a ++ b := by
  induction a with
  | nil => simp
  | cons x a' ih =>
    by_cases hx : p x = true
    · simp only [List.cons_append, List.dropWhile_cons, hx, if_true]
      exact ih
    · simp only [List.cons_append, List.dropWhile_cons, hx]
      simp

theorem trim_keeps_name_prefix (u : List Char) :
    lpre (chars "name:") (trimChars (chars "name: " ++ u)) = true := by
  have hdrop1 : (chars "name: " ++ u).dropWhile isWsChar = chars "name: " ++ u := rfl
  unfold trimChars
  rw [hdrop1, List.reverse_append]
  have hsplit : (chars "name: ").reverse = chars " :eman" := rfl
  rw [hsplit, dropWhile_append_cases]
  by_cases he : (List.dropWhile isWsChar u.reverse).isEmpty
  · rw [if_pos he]
    rfl
  · rw [if_neg he]
    rw [List.reverse_append]
    have : (chars " :eman").reverse = chars "name: " := rfl
    rw [this]
    exact lpre_extend _ rfl

theorem hasName_name_head (w : List Char) :
    frontmatterHasName (chars "\nname: " ++ w) = true := by
  have hsplit : splitOnChar '\n' (chars "\nname: " ++ w) =
      [] :: splitOnChar '\n' (chars "name: " ++ w) := rfl
  obtain ⟨u, rest, hu⟩ := splitOnChar_pref (chars "name: ") w (by decide)
  unfold frontmatterHasName
  rw [hsplit, hu]
  have h6 := trim_keeps_name_prefix u
  simp [h6]

/-- Both branches of the code where the content is already satisfactory
return it unchanged. -/
theorem ensure_eq_self {content : List Char} (n : List Char)
    (h1 : lpre (chars "---") content = true)
    (h2 : findSub (chars "---") (content.drop 3) = none ∨
      ∃ i, findSub (chars "---") (content.drop 3) = some i ∧
        frontmatterHasName ((content.drop 3).take i) = true) :
    ensure_skill_name_in_frontmatter content n = content := by
  unfold ensure_skill_name_in_frontmatter
  rw [h1]
  rcases h2 with hnone | ⟨i, hsome, hname⟩
  · simp [hnone]
  · simp [hsome, hname]

/-- The inserted form `---\nname: <n>\n…` is a fixed point of the
transform whenever another `---` occurs after the inserted name line. -/
theorem ensure_fixed_on_inserted (n X : List Char)
    (hocc : ∃ Y Z : List Char, chars "\nname: " ++ X = Y ++ (chars "---" ++ Z)) :
    ensure_skill_name_in_frontmatter (chars "---\nname: " ++ X) n =
      chars "---\nname: " ++ X := by
  have h1 : lpre (chars "---") (chars "---\nname: " ++ X) = true := rfl
  have hdrop : (chars "---\nname: " ++ X).drop 3 = chars "\nname: " ++ X := rfl
  obtain ⟨Y, Z, hYZ⟩ := hocc
  have hlp : lpre (chars "---") ((chars "\nname: " ++ X).drop Y.length) = true := by
    rw [hYZ, List.drop_left]
    rfl
  obtain ⟨i, hi⟩ := findSub_isSome_of_drop hlp
  have hbound : 7 ≤ i := lpre_dash_bound (findSub_some_lpre hi)
  have hname : frontmatterHasName ((chars "\nname: " ++ X).take i) = true := by
    have hlen : (chars "\nname: ").length = 7 := rfl
    have htake : (chars "\nname: " ++ X).take i = chars "\nname: " ++ X.take (i - 7) := by
      rw [List.take_append_eq_append_take, hlen]
      congr 1
      exact List.take_of_length_le (by rw [hlen]; exact hbound)
    rw [htake]
    exact hasName_name_head _
  apply ensure_eq_self
  · exact h1
  · right
    refine ⟨i, ?_, ?_⟩
    · rw [hdrop]
      exact hi
    · rw [hdrop]
      exact hname

/-- Shape of the result when the content has no frontmatter at all. -/
theorem ensure_insert_nofm (content n : List Char)
    (hstart : lpre (chars "---") content = false) :
    ensure_skill_name_in_frontmatter content n =
      chars "---\nname: " ++ (n ++ (chars "\n---\n" ++ content)) := by
  unfold ensure_skill_name_in_frontmatter
  simp only [hstart, Bool.not_false, if_true]
  simp [List.append_assoc]

/-- Shape of the result when a terminated frontmatter lacks a name line. -/
theorem ensure_insert_some (content n : List Char) (i : Nat)
    (hstart : lpre (chars "---") content = true)
    (hfind : findSub (chars "---") (content.drop 3) = some i)
    (hname : frontmatterHasName ((content.drop 3).take i) = false) :
    ensure_skill_name_in_frontmatter content n =
      chars "---\nname: " ++ (n ++ (chars "\n" ++ (trimChars ((content.drop 3).take i) ++
        (chars "\n" ++ (content.drop 3).drop i)))) := by
  have hrest : lpre (chars "---") ((content.drop 3).drop i) = true := findSub_some_lpre hfind
  obtain ⟨t', ht'⟩ := lpre_cons_head hrest
  have hdw : ((content.drop 3).drop i).dropWhile (fun c => c = '\n') =
      (content.drop 3).drop i := by
    rw [ht', List.dropWhile_cons]
    simp
  unfold ensure_skill_name_in_frontmatter
  simp only [hstart, Bool.not_true, Bool.false_eq_true, if_false, hfind, hname, hdw]
  simp [List.append_assoc]

/-- Claim C6 (amended): the transform is idempotent; when the content has
no frontmatter, or a terminated first frontmatter block without a
`name:`/`name :` line, the result starts with `---\nname: <n>\n` — a
`name: n` line opening the first frontmatter block; when the first block
already has a name line, or the frontmatter is unterminated, the content
is returned unchanged (so the result need not mention `n`). -/
theorem ensure_skill_name_idempotent_inserts (content n : List Char) :
    ensure_skill_name_in_frontmatter (ensure_skill_name_in_frontmatter content n) n =
      ensure_skill_name_in_frontmatter content n ∧
    ((lpre (chars "---") content = false ∨
      (∃ i, findSub (chars "---") (content.drop 3) = some i ∧
        frontmatterHasName ((content.drop 3).take i) = false)) →
      ∃ z, ensure_skill_name_in_frontmatter content n =
        chars "---\nname: " ++ (n ++ (chars "\n" ++ z))) ∧
    (lpre (chars "---") content = true →
      (findSub (chars "---") (content.drop 3) = none ∨
        (∃ i, findSub (chars "---") (content.drop 3) = some i ∧
          frontmatterHasName ((content.drop 3).take i) = true)) →
      ensure_skill_name_in_frontmatter content n = content) := by
  refine ⟨?_, ?_, fun h1 h2 => ensure_eq_self n h1 h2⟩
  · -- idempotence
    by_cases hstart : lpre (chars "---") content = true
    · cases hfind : findSub (chars "---") (content.drop 3) with
      | none =>
        have he := ensure_eq_self n hstart (Or.inl hfind)
        rw [he, he]
      | some i =>
        by_cases hname : frontmatterHasName ((content.drop 3).take i) = true
        · have he := ensure_eq_self n hstart (Or.inr ⟨i, hfind, hname⟩)
          rw [he, he]
        · have hname' : frontmatterHasName ((content.drop 3).take i) = false :=
            Bool.eq_false_iff.mpr hname
          have he := ensure_insert_some content n i hstart hfind hname'
          have hrest : lpre (chars "---") ((content.drop 3).drop i) = true :=
            findSub_some_lpre hfind
          have hrd : (content.drop 3).drop i =
              chars "---" ++ ((content.drop 3).drop i).drop 3 := by
            have := lpre_decompose hrest
            simpa using this
          rw [he]
          apply ensure_fixed_on_inserted
          refine ⟨chars "\nname: " ++ (n ++ (chars "\n" ++
            (trimChars ((content.drop 3).take i) ++ chars "\n"))),
            ((content.drop 3).drop i).drop 3, ?_⟩
          conv_lhs => rw [hrd]
          simp [List.append_assoc]
    · have hstart' : lpre (chars "---") content = false := Bool.eq_false_iff.mpr hstart
      have he := ensure_insert_nofm content n hstart'
      rw [he]
      apply ensure_fixed_on_inserted
      refine ⟨chars "\nname: " ++ (n ++ chars "\n"), chars "\n" ++ content, ?_⟩
      have hsplit : chars "\n---\n" = chars "\n" ++ (chars "---" ++ chars "\n") := rfl
      rw [hsplit]
      simp [List.append_assoc]
  · -- insertion cases produce the name line at the head of the block
    intro h
    rcases h with hfalse | ⟨i, hfind, hname⟩
    · exact ⟨chars "---\n" ++ content, by
        rw [ensure_insert_nofm content n hfalse]
        have hsplit : chars "\n---\n" = chars "\n" ++ (chars "---\n") := rfl
        rw [hsplit]
        simp [List.append_assoc]⟩
    · by_cases hstart : lpre (chars "---") content = true
      · exact ⟨trimChars ((content.drop 3).take i) ++ (chars "\n" ++ (content.drop 3).drop i),
          ensure_insert_some content n i hstart hfind hname⟩
      · have hstart' : lpre (chars "---") content = false := Bool.eq_false_iff.mpr hstart
        exact ⟨chars "---\n" ++ content, by
          rw [ensure_insert_nofm content n hstart']
          have hsplit : chars "\n---\n" = chars "\n" ++ (chars "---\n") := rfl
          rw [hsplit]
          simp [List.append_assoc]⟩

/-- Witness for C6: a content without frontmatter gains
`---\nname: tool\n` at its head. -/
theorem ensure_skill_name_idempotent_inserts_witness :
    ∃ z, ensure_skill_name_in_frontmatter (chars "hello") (chars "tool") =
      chars "---\nname: " ++ (chars "tool" ++ (chars "\n" ++ z)) :=
  (ensure_skill_name_idempotent_inserts (chars "hello") (chars "tool")).2.1
    (Or.inl (by decide))

/-- Counterexample for C6 as frozen: when the first frontmatter block
already carries a different name, the content is returned unchanged, so
the result contains no `name: n` line for the requested skill name. -/
theorem ensure_skill_name_keeps_existing_name :
    ensure_skill_name_in_frontmatter (chars "---\nname: other\n---\nbody") (chars "foo") =
      chars "---\nname: other\n---\nbody" ∧
    containsSub (chars "name: foo")
      (ensure_skill_name_in_frontmatter (chars "---\nname: other\n---\nbody")
        (chars "foo")) = false :=
  ⟨by decide, by decide⟩

/-! PTY session pool (claim C1). -/

theorem poolStep_idle_invariant {s : PoolSt}
    (hs : ∀ kv ∈ s.sessions, kv.2.disconnectedAt = none → kv.2.inUse = true)
    (a : PoolAct) :
    ∀ kv ∈ (poolStep s a).1.sessions, kv.2.disconnectedAt = none → kv.2.inUse = true := by
  cases a with
  | connect k =>
    simp only [poolStep]
    cases halk : alookup k s.sessions with
    | some ps =>
      by_cases hre : (!ps.inUse && !ps.channelClosed) = true
      · simp only [hre, if_true]
        intro kv hkv
        rcases mem_aset hkv with rfl | hold
        · intro _
          rfl
        · exact hs kv hold
      · simp only [hre]
        simp only [Bool.false_eq_true, if_false]
        exact hs
    | none => exact hs
  | finishInsert k =>
    simp only [poolStep]
    cases hpend : alookup k s.pending with
    | none => exact hs
    | some c =>
      cases halk : alookup k s.sessions with
      | some ps =>
        by_cases hu : ps.inUse = true
        · simp only [hu, if_true]
          exact hs
        · simp only [hu]
          simp only [Bool.false_eq_true, if_false]
          intro kv hkv
          rcases mem_aset hkv with rfl | hold
          · intro _
            rfl
          · exact hs kv (mem_aeraseOne hold)
      | none =>
        intro kv hkv
        rcases mem_aset hkv with rfl | hold
        · intro _
          rfl
        · exact hs kv hold
  | disconnect k =>
    simp only [poolStep]
    cases halk : alookup k s.sessions with
    | some ps =>
      by_cases hu : ps.inUse = true
      · simp only [hu, if_true]
        intro kv hkv
        rcases mem_aset hkv with rfl | hold
        · intro hno
          cases hno
        · exact hs kv hold
      · simp only [hu]
        simp only [Bool.false_eq_true, if_false]
        exact hs
    | none => exact hs
  | reap =>
    simp only [poolStep]
    intro kv hkv
    exact hs kv (List.mem_filter.mp hkv).1
  | tick d => exact hs

theorem poolStep_kill_classified (s : PoolSt) (a : PoolAct) :
    ∀ e ∈ (poolStep s a).2,
      (e.reason = .reaperExpired →
        e.victimInUse = false ∧ ∃ x, e.idleAge = some x ∧ SESSION_POOL_TIMEOUT < x) ∧
      (e.reason = .staleReplaced → e.victimInUse = false) ∧
      (e.reason = .newAborted → e.idleAge = none) := by
  cases a with
  | connect k =>
    simp only [poolStep]
    cases halk : alookup k s.sessions with
    | some ps =>
      by_cases hre : (!ps.inUse && !ps.channelClosed) = true
      · simp [hre]
      · simp only [hre]
        simp
    | none => simp
  | finishInsert k =>
    simp only [poolStep]
    cases hpend : alookup k s.pending with
    | none => simp
    | some c =>
      cases halk : alookup k s.sessions with
      | some ps =>
        by_cases hu : ps.inUse = true
        · simp only [hu, if_true]
          intro e he
          simp only [List.mem_singleton] at he
          subst he
          refine ⟨?_, ?_, ?_⟩ <;> intro h
          · exact KillReason.noConfusion h
          · exact KillReason.noConfusion h
          · rfl
        · simp only [hu]
          simp only [Bool.false_eq_true, if_false]
          intro e he
          simp only [List.mem_singleton] at he
          subst he
          refine ⟨?_, ?_, ?_⟩ <;> intro h
          · exact KillReason.noConfusion h
          · rfl
          · exact KillReason.noConfusion h
      | none => simp
  | disconnect k =>
    simp only [poolStep]
    cases halk : alookup k s.sessions with
    | some ps =>
      by_cases hu : ps.inUse = true
      · simp [hu]
      · simp only [hu]
        simp
    | none => simp
  | reap =>
    simp only [poolStep]
    intro e he
    obtain ⟨kv, hkv, hmap⟩ := List.mem_map.mp he
    have hexp := (List.mem_filter.mp hkv).2
    unfold sessionExpired at hexp
    obtain ⟨hni, hdt⟩ := Bool.and_eq_true_iff.mp hexp
    cases hda : kv.2.disconnectedAt with
    | none =>
      rw [hda] at hdt
      cases hdt
    | some t =>
      rw [hda] at hdt
      have hgt : SESSION_POOL_TIMEOUT < s.time - t := by
        simpa using of_decide_eq_true hdt
      subst hmap
      refine ⟨fun _ => ?_, fun _ => ?_, fun h => by cases h⟩
      · refine ⟨by simpa using hni, s.time - t, by simp [hda], hgt⟩
      · simpa using hni
  | tick d => simp [poolStep]

theorem runPool_idle_invariant (acts : List PoolAct) :
    ∀ s : PoolSt, (∀ kv ∈ s.sessions, kv.2.disconnectedAt = none → kv.2.inUse = true) →
      ∀ kv ∈ (runPool s acts).1.sessions, kv.2.disconnectedAt = none → kv.2.inUse = true := by
  induction acts with
  | nil => intro s hs; exact hs
  | cons a rest ih =>
    intro s hs
    exact ih (poolStep s a).1 (poolStep_idle_invariant hs a)

theorem runPool_kill_classified (acts : List PoolAct) :
    ∀ s : PoolSt, ∀ e ∈ (runPool s acts).2,
      (e.reason = .reaperExpired →
        e.victimInUse = false ∧ ∃ x, e.idleAge = some x ∧ SESSION_POOL_TIMEOUT < x) ∧
      (e.reason = .staleReplaced → e.victimInUse = false) ∧
      (e.reason = .newAborted → e.idleAge = none) := by
  induction acts with
  | nil =>
    intro s e he
    cases he
  | cons a rest ih =>
    intro s e he
    rcases List.mem_append.mp he with h1 | h2
    · exact poolStep_kill_classified s a e h1
    · exact ih (poolStep s a).1 e h2

/-- Claim C1 (amended): in every reachable pool state, a session without
a disconnect stamp is in use; the disconnect step flips the session to
not-in-use and stamps the current time while killing nothing; and every
child kill is one of exactly three kinds — the reaper killing a
not-in-use session idle for more than `SESSION_POOL_TIMEOUT`, the
new-connection insert replacing (and killing) an existing not-in-use
entry, or the abort of a freshly spawned, never-pooled child when the
entry is in use. -/
theorem session_pool_lifecycle :
    (∀ acts : List PoolAct, ∀ kv ∈ (runPool initPool acts).1.sessions,
      kv.2.disconnectedAt = none → kv.2.inUse = true) ∧
    (∀ (s : PoolSt) (k : String) (ps : PSession),
      alookup k s.sessions = some ps → ps.inUse = true →
      (poolStep s (.disconnect k)).2 = [] ∧
      alookup k (poolStep s (.disconnect k)).1.sessions =
        some { ps with inUse := false, disconnectedAt := some s.time }) ∧
    (∀ acts : List PoolAct, ∀ e ∈ (runPool initPool acts).2,
      (e.reason = .reaperExpired →
        e.victimInUse = false ∧ ∃ x, e.idleAge = some x ∧ SESSION_POOL_TIMEOUT < x) ∧
      (e.reason = .staleReplaced → e.victimInUse = false) ∧
      (e.reason = .newAborted → e.idleAge = none)) := by
  refine ⟨?_, ?_, ?_⟩
  · intro acts
    exact runPool_idle_invariant acts initPool (by intro kv hkv; cases hkv)
  · intro s k ps halk hu
    constructor
    · simp [poolStep, halk, hu]
    · simp only [poolStep, halk, hu, if_true]
      exact alookup_aset_self _ _ _
  · intro acts
    exact runPool_kill_classified acts initPool

/-- Witness for C1: the idle-flag invariant at a freshly inserted
session, the kill-free disconnect step on it, and the classification of a
reaper kill after 31 seconds of idleness. -/
theorem session_pool_lifecycle_witness :
    (("k", freshSession 0) : String × PSession).2.inUse = true ∧
    (poolStep (runPool initPool [PoolAct.connect "k", PoolAct.finishInsert "k"]).1
      (PoolAct.disconnect "k")).2 = [] ∧
    ((KillEvent.mk 0 KillReason.reaperExpired false (some 31)).victimInUse = false ∧
      ∃ x, (KillEvent.mk 0 KillReason.reaperExpired false (some 31)).idleAge = some x ∧
        SESSION_POOL_TIMEOUT < x) :=
  ⟨session_pool_lifecycle.1 [PoolAct.connect "k", PoolAct.finishInsert "k"]
      ("k", freshSession 0) (by decide) (by decide),
    (session_pool_lifecycle.2.1
      (runPool initPool [PoolAct.connect "k", PoolAct.finishInsert "k"]).1
      "k" (freshSession 0) (by decide) (by decide)).1,
    (session_pool_lifecycle.2.2
      [PoolAct.connect "k", PoolAct.finishInsert "k", PoolAct.disconnect "k",
        PoolAct.tick 31, PoolAct.reap]
      (KillEvent.mk 0 KillReason.reaperExpired false (some 31)) (by decide)).1 rfl⟩

/-- Counterexample for C1 as frozen: a second tab connects while the
first is attached, the first disconnects, and the second handler's pool
write then removes and kills the pooled child immediately — at idle age
0 s, not via the reaper after 30 s. -/
theorem session_pool_kills_stale_before_timeout :
    (runPool initPool [PoolAct.connect "k", PoolAct.finishInsert "k", PoolAct.connect "k",
      PoolAct.disconnect "k", PoolAct.finishInsert "k"]).2 =
      [{ child := 0, reason := KillReason.staleReplaced, victimInUse := false,
         idleAge := some 0 }] ∧
    KillReason.staleReplaced ≠ KillReason.reaperExpired ∧
    ¬SESSION_POOL_TIMEOUT < 0 :=
  ⟨by decide, by decide, by decide⟩

end OpenAgent
